import Mathlib

/-!
# Verification of `build-vercel.js` (moodflow-capstone output packager)

This file shallowly embeds the Node script `src/build-vercel.js`, the only
executable component of the repository.  The script manipulates the local
filesystem: it resets `.vercel/output`, recursively mirrors `dist` into
`.vercel/output/static`, promotes the first `AppEntry*.js` bundle found in
`dist/_expo/static/js/web` to `.vercel/output/static/bundle.js`, rewrites the
first `src="...AppEntry....js"` attribute of `index.html` to
`src="/bundle.js"`, and writes a routing manifest `config.json` (pretty
printed with 2-space indentation) at the output root.

The filesystem is modelled as a finite ordered tree: a directory is an
ordered association list of named entries (the list order models the
directory-listing order returned by `fs.readdirSync`), a file carries its
content.  Paths are lists of path components (`path.join` concatenates
components, and readdir names never contain a separator).  Fallible
filesystem calls (those that throw in Node: `mkdirSync` across a file,
`readdirSync` of a file, `copyFileSync` of a directory, ...) return
`Option`; `none` models the script crashing with an unhandled exception.
-/

namespace VercelBuild

mutual

/-- A filesystem node: either a file with its content (byte strings are
modelled as Lean strings; the claims only compare contents for equality,
never inspect encodings) or a directory with an ordered list of named
children. -/
inductive Entry where
  | file (content : String)
  | dir (children : Entries)
deriving DecidableEq

/-- The ordered association list of a directory's children; its order models
the directory-listing order of `readdirSync`. -/
inductive Entries where
  | nil
  | cons (name : String) (entry : Entry) (rest : Entries)
deriving DecidableEq

end

/-- Association lookup of the first child with the given name. -/
def Entries.find? : Entries → String → Option Entry
  | .nil, _ => none
  | .cons m e rest, n => if m = n then some e else rest.find? n

/-- Whether a directory listing contains the given name. -/
def Entries.hasName : Entries → String → Bool
  | .nil, _ => false
  | .cons m _ rest, n => m = n || rest.hasName n

/-- The listing order of names, as returned by `fs.readdirSync`. -/
def Entries.names : Entries → List String
  | .nil => []
  | .cons m _ rest => m :: rest.names

/-- Replace the entry of the first child with the given name, keeping its
position in the listing.  Leaves the listing unchanged if no child has the
name. -/
def Entries.set : Entries → String → Entry → Entries
  | .nil, _, _ => .nil
  | .cons m e0 rest, n, e => if m = n then .cons m e rest else .cons m e0 (rest.set n e)

/-- Append a new child at the end of the listing (a freshly created file or
directory lists after the existing entries). -/
def Entries.push : Entries → String → Entry → Entries
  | .nil, n, e => .cons n e .nil
  | .cons m e0 rest, n, e => .cons m e0 (rest.push n e)

/-- Write a child: overwrite in place when the name exists, otherwise append
at the end.  This is the effect of a successful `fs.writeFileSync` /
`fs.copyFileSync` / `fs.mkdirSync` on the parent listing. -/
def Entries.insert (ch : Entries) (n : String) (e : Entry) : Entries :=
  if ch.hasName n then ch.set n e else ch.push n e

/-- Remove the first child with the given name (the effect of
`fs.rmSync(..., { recursive: true })` on the parent listing). -/
def Entries.remove : Entries → String → Entries
  | .nil, _ => .nil
  | .cons m e rest, n => if m = n then rest else .cons m e (rest.remove n)

mutual

/-- Height of a node: 0 for a file, 1 + maximal child height for a
directory.  Bounds the recursion depth of the script's `copyRecursive`. -/
def Entry.height : Entry → Nat
  | .file _ => 0
  | .dir ch => ch.height

/-- `Entries.height ch` is the height of the directory node `dir ch`. -/
def Entries.height : Entries → Nat
  | .nil => 0
  | .cons _ e rest => max (e.height + 1) rest.height

end

mutual

/-- Well-formedness of a real directory tree: sibling names are distinct at
every level (a real filesystem cannot hold two children with one name). -/
def Entry.wf : Entry → Bool
  | .file _ => true
  | .dir ch => ch.wf

/-- Well-formedness of a listing: pairwise distinct names, recursively. -/
def Entries.wf : Entries → Bool
  | .nil => true
  | .cons n e rest => !rest.hasName n && e.wf && rest.wf

end

/-- Resolve a path (list of components) from a root node, as the chain of
`path.join` component lookups performed by the `fs` calls of the script. -/
def lookup : List String → Entry → Option Entry
  | [], e => some e
  | _ :: _, .file _ => none
  | n :: p, .dir ch => match ch.find? n with
    | some e => lookup p e
    | none => none

/-- `fs.existsSync`. -/
def existsSync (p : List String) (fs : Entry) : Bool :=
  (lookup p fs).isSome

/-- `fs.rmSync(p, { recursive: true })`: drop the node at `p` together with
everything beneath it.  (The script only calls it guarded by
`fs.existsSync(p)`.) -/
def removePath : List String → Entry → Entry
  | [], e => e
  | n :: p, .dir ch =>
    match p with
    | [] => .dir (ch.remove n)
    | _ :: _ => .dir (ch.set n (match ch.find? n with
        | some sub => removePath p sub
        | none => .dir .nil))
  | _ :: _, .file c => .file c

/-- `fs.mkdirSync(p, { recursive: true })`: create every missing directory
along `p`; descend through existing directories; throw (`none`) when a path
component exists as a file. -/
def mkdirp : List String → Entry → Option Entry
  | [], e => match e with
    | .dir ch => some (.dir ch)
    | .file _ => none
  | n :: p, .dir ch => match ch.find? n with
    | some sub => (mkdirp p sub).map (fun s => .dir (ch.set n s))
    | none => (mkdirp p (.dir .nil)).map (fun s => .dir (ch.push n s))
  | _ :: _, .file _ => none

/-- `fs.writeFileSync(p, c)` (and the destination side of
`fs.copyFileSync`): the parent chain must already exist as directories,
an existing destination file is overwritten in place, an existing
destination directory makes the call throw (`EISDIR`). -/
def writeFileAt : List String → String → Entry → Option Entry
  | [], _, _ => none
  | n :: p, c, .dir ch =>
    match p with
    | [] =>
      match ch.find? n with
      | some (.dir _) => none
      | _ => some (.dir (ch.insert n (.file c)))
    | _ :: _ =>
      match ch.find? n with
      | some sub => (writeFileAt p c sub).map (fun s => .dir (ch.set n s))
      | none => none
  | _ :: _, _, .file _ => none

/-- `fs.readFileSync(p, 'utf8')`: the content of the file at `p`; reading a
missing path or a directory throws (`none`). -/
def readFileAt (p : List String) (fs : Entry) : Option String :=
  match lookup p fs with
  | some (.file c) => some c
  | _ => none

/-- `fs.copyFileSync(src, dest)`. -/
def copyFile (src dest : List String) (fs : Entry) : Option Entry :=
  match readFileAt src fs with
  | some c => writeFileAt dest c fs
  | none => none

/-! ## The `index.html` rewrite

Line 41 of the script runs
`html.replace(/src="[^"]*AppEntry[^"]*\.js"/, 'src="/bundle.js"')`:
a non-global JavaScript regex replace, i.e. only the leftmost match is
replaced.  A match consists of the literal `src="`, a run of non-quote
characters of the shape `A ++ "AppEntry" ++ B ++ ".js"` (both character
classes are `[^"]*`, so the run holds no quote), and a closing quote.
Because the run between the quotes is quote-free, the closing quote of a
match starting at a given position is necessarily the first quote after
its `src="`, so a match at a position exists exactly when the segment up
to that first closing quote contains `AppEntry` and ends with `.js`
(no occurrence of `AppEntry` can overlap the trailing `.js`: the last
character of `AppEntry` is `y`, which is none of `.`, `j`, `s`).  The
matcher below implements exactly that, scanning left to right. -/

/-- Does `s` start with the pattern `pat`? -/
def startsWithL : List Char → List Char → Bool
  | _, [] => true
  | [], _ :: _ => false
  | c :: s, p :: pat => c = p && startsWithL s pat

/-- Strip the leading pattern `pat` from `s`, or fail. -/
def dropPre : List Char → List Char → Option (List Char)
  | s, [] => some s
  | [], _ :: _ => none
  | c :: s, p :: pat => if c = p then dropPre s pat else none

/-- Does `s` contain `pat` as a contiguous substring? -/
def containsSub (pat : List Char) : List Char → Bool
  | [] => pat.isEmpty
  | c :: s => startsWithL (c :: s) pat || containsSub pat s

/-- Does `s` end with the pattern `pat`? -/
def endsWithL (s pat : List Char) : Bool :=
  startsWithL s.reverse pat.reverse

/-- Split `s` at its first double-quote character: returns the quote-free
run before it and the remainder after it, or fails when `s` holds no
quote. -/
def splitAtQuote : List Char → Option (List Char × List Char)
  | [] => none
  | c :: s =>
    if c = '"' then some ([], s)
    else (splitAtQuote s).map (fun q => (c :: q.1, q.2))

/-- The regex `/src="[^"]*AppEntry[^"]*\.js"/` matched at the head of `s`:
returns the remainder of `s` after the match, or fails. -/
def matchHere (s : List Char) : Option (List Char) :=
  match dropPre s "src=\"".toList with
  | none => none
  | some rest =>
    match splitAtQuote rest with
    | none => none
    | some (seg, after) =>
      if containsSub "AppEntry".toList seg && endsWithL seg ".js".toList then
        some after
      else none

/-- Left-to-right scan replacing the leftmost regex match (the semantics of
`String.prototype.replace` with a non-global regex) with
`src="/bundle.js"`. -/
def replaceScan : List Char → List Char
  | [] => []
  | c :: s =>
    match matchHere (c :: s) with
    | some after => "src=\"/bundle.js\"".toList ++ after
    | none => c :: replaceScan s

/-- Line 41 of the script: `html.replace(/src="[^"]*AppEntry[^"]*\.js"/,
'src="/bundle.js"')`. -/
def replaceAppEntry (s : String) : String :=
  String.mk (replaceScan s.toList)

/-! ## JSON documents and `JSON.stringify(config, null, 2)`

The script builds a fixed object literal `config` (lines 47-68) and writes
`JSON.stringify(config, null, 2)` (line 70).  We model the JSON documents
the script can build (strings, numbers, booleans, ordered arrays and
ordered objects) and the pretty printer of `JSON.stringify` with a 2-space
indent: objects and arrays open on their own line, every item is indented
by two more spaces than its parent, items are separated by a comma and a
newline, keys are separated from values by a colon and a space. -/

mutual

/-- A JSON document, with object fields kept in insertion order as
`JSON.stringify` serialises them. -/
inductive Json where
  | str (s : String)
  | num (n : Nat)
  | bool (b : Bool)
  | arr (elems : JsonList)
  | obj (fields : JsonFields)
deriving DecidableEq

/-- The ordered elements of a JSON array. -/
inductive JsonList where
  | nil
  | cons (head : Json) (tail : JsonList)
deriving DecidableEq

/-- The ordered fields of a JSON object. -/
inductive JsonFields where
  | nil
  | cons (key : String) (val : Json) (rest : JsonFields)
deriving DecidableEq

end

/-- JSON string quoting.  The strings of the script's `config` contain no
quote, backslash or control character, so plain quoting suffices; quote and
backslash are still escaped for faithfulness. -/
def quoteJsonChar (c : Char) : String :=
  if c = '"' then "\\\""
  else if c = '\\' then "\\\\"
  else String.singleton c

/-- Quote a JSON string value. -/
def quoteJson (s : String) : String :=
  "\"" ++ String.join (s.toList.map quoteJsonChar) ++ "\""

/-- `n * 2` spaces, the indentation of nesting level `n` under
`JSON.stringify(v, null, 2)`. -/
def indentStr : Nat → String
  | 0 => ""
  | n + 1 => "  " ++ indentStr n

mutual

/-- `JSON.stringify(v, null, 2)` on a document, at nesting level `lvl`. -/
def Json.render : Nat → Json → String
  | _, .str s => quoteJson s
  | _, .num n => Nat.repr n
  | _, .bool b => if b then "true" else "false"
  | lvl, .arr es =>
    match es with
    | .nil => "[]"
    | .cons _ _ => "[\n" ++ JsonList.render (lvl + 1) es ++ "\n" ++ indentStr lvl ++ "]"
  | lvl, .obj fs =>
    match fs with
    | .nil => "\x7b\x7d"
    | .cons _ _ _ => "\x7b\n" ++ JsonFields.render (lvl + 1) fs ++ "\n" ++ indentStr lvl ++ "\x7d"

/-- Render array elements, one per line, comma separated. -/
def JsonList.render : Nat → JsonList → String
  | _, .nil => ""
  | lvl, .cons x .nil => indentStr lvl ++ Json.render lvl x
  | lvl, .cons x (.cons y t) =>
    indentStr lvl ++ Json.render lvl x ++ ",\n" ++ JsonList.render lvl (.cons y t)

/-- Render object fields, one per line, comma separated. -/
def JsonFields.render : Nat → JsonFields → String
  | _, .nil => ""
  | lvl, .cons k v .nil => indentStr lvl ++ quoteJson k ++ ": " ++ Json.render lvl v
  | lvl, .cons k v (.cons k2 v2 t) =>
    indentStr lvl ++ quoteJson k ++ ": " ++ Json.render lvl v ++ ",\n" ++
      JsonFields.render lvl (.cons k2 v2 t)

end

/-- The cache header object shared by the first two routes (lines 52 and
57 of the script). -/
def cacheHeaders : Json :=
  .obj (.cons "Cache-Control" (.str "public, max-age=31536000, immutable") .nil)

/-- The object literal `config` of lines 47-68 of the script: version 3 and
the four routes in source order. -/
def config : Json :=
  .obj (.cons "version" (.num 3)
    (.cons "routes" (.arr
      (.cons (.obj (.cons "src" (.str "^/static/(.*)$")
                (.cons "headers" cacheHeaders
                  (.cons "continue" (.bool true) .nil))))
      (.cons (.obj (.cons "src" (.str "^/assets/(.*)$")
                (.cons "headers" cacheHeaders
                  (.cons "continue" (.bool true) .nil))))
      (.cons (.obj (.cons "handle" (.str "filesystem") .nil))
      (.cons (.obj (.cons "src" (.str "/(.*)")
                (.cons "dest" (.str "/index.html") .nil)))
      .nil)))))
    .nil))

/-- Line 70 of the script: the exact text written to `config.json`. -/
def configText : String :=
  Json.render 0 config

/-! ## A JSON reader

Claim C4 speaks about the emitted `config.json` being *parsed back*; the
reader below implements the standard JSON surface grammar (objects, arrays,
strings with quote/backslash escapes, decimal naturals, booleans,
whitespace), enough to read back anything `Json.render` emits. -/

/-- The opening brace character (written via its code point). -/
def braceO : Char := Char.ofNat 123

/-- The closing brace character (written via its code point). -/
def braceC : Char := Char.ofNat 125

/-- Drop leading JSON whitespace. -/
def skipWs : List Char → List Char
  | [] => []
  | c :: s => if c = ' ' || c = '\n' || c = '\t' || c = '\r' then skipWs s else c :: s

/-- Unescape one escaped character of a JSON string. -/
def escChar (c : Char) : Char :=
  if c = 'n' then '\n' else if c = 't' then '\t' else c

/-- Read a JSON string body up to and including the closing quote. -/
def parseStringBody : List Char → Option (String × List Char)
  | [] => none
  | c :: s =>
    if c = '"' then some ("", s)
    else if c = '\\' then
      match s with
      | [] => none
      | e :: s2 =>
        (parseStringBody s2).map (fun r => (String.singleton (escChar e) ++ r.1, r.2))
    else (parseStringBody s).map (fun r => (String.singleton c ++ r.1, r.2))

/-- Read a run of decimal digits into a natural number. -/
def parseNatAux : List Char → Nat → Nat × List Char
  | [], acc => (acc, [])
  | c :: s, acc =>
    if c.isDigit then parseNatAux s (acc * 10 + (c.toNat - 48)) else (acc, c :: s)

mutual

/-- Read one JSON value; the fuel bounds the nesting depth. -/
def parseVal : Nat → List Char → Option (Json × List Char)
  | 0, _ => none
  | fuel + 1, s0 =>
    match skipWs s0 with
    | [] => none
    | c :: rest =>
      if c = '"' then (parseStringBody rest).map (fun r => (.str r.1, r.2))
      else if c = '[' then
        match skipWs rest with
        | c2 :: r2 =>
          if c2 = ']' then some (.arr .nil, r2)
          else (parseArrItems fuel rest).map (fun t => (.arr t.1, t.2))
        | [] => none
      else if c = braceO then
        match skipWs rest with
        | c2 :: r2 =>
          if c2 = braceC then some (.obj .nil, r2)
          else (parseObjItems fuel rest).map (fun t => (.obj t.1, t.2))
        | [] => none
      else if c.isDigit then
        some (.num (parseNatAux (c :: rest) 0).1, (parseNatAux (c :: rest) 0).2)
      else
        match dropPre (c :: rest) "true".toList with
        | some r => some (.bool true, r)
        | none =>
          match dropPre (c :: rest) "false".toList with
          | some r => some (.bool false, r)
          | none => none

/-- Read the comma-separated items of a non-empty JSON array, consuming the
closing bracket. -/
def parseArrItems : Nat → List Char → Option (JsonList × List Char)
  | 0, _ => none
  | fuel + 1, s =>
    match parseVal fuel s with
    | none => none
    | some (v, r) =>
      match skipWs r with
      | c :: r2 =>
        if c = ',' then (parseArrItems fuel r2).map (fun t => (.cons v t.1, t.2))
        else if c = ']' then some (.cons v .nil, r2)
        else none
      | [] => none

/-- Read the comma-separated fields of a non-empty JSON object, consuming
the closing brace. -/
def parseObjItems : Nat → List Char → Option (JsonFields × List Char)
  | 0, _ => none
  | fuel + 1, s =>
    match skipWs s with
    | c :: r =>
      if c = '"' then
        match parseStringBody r with
        | none => none
        | some (k, r2) =>
          match skipWs r2 with
          | c2 :: r3 =>
            if c2 = ':' then
              match parseVal fuel r3 with
              | none => none
              | some (v, r4) =>
                match skipWs r4 with
                | c3 :: r5 =>
                  if c3 = ',' then (parseObjItems fuel r5).map (fun t => (.cons k v t.1, t.2))
                  else if c3 = braceC then some (.cons k v .nil, r5)
                  else none
                | [] => none
            else none
          | [] => none
      else none
    | [] => none

end

/-- Read a complete JSON document (an entire file's text). -/
def parseJson (s : String) : Option Json :=
  match parseVal (s.length + 1) s.toList with
  | some (v, r) => if (skipWs r).isEmpty then some v else none
  | none => none

/-! ## The script itself

`build-vercel.js` runs five strictly sequential phases (lines 7-70); each
is embedded as one function on the filesystem root, and `build` chains
them.  `copyRecursive` (lines 74-89) recurses over the directory tree; the
Lean embedding adds an explicit fuel argument bounding the recursion depth
(the script's own recursion terminates because the directory tree read
from disk is finite; `build` passes a fuel strictly larger than the height
of the tree, which the correctness lemmas below show is never
exhausted). -/

/-- Lines 83-85 of the script: `fs.readdirSync(src).forEach(item =>
copyRecursive(path.join(src, item), path.join(dest, item)))`.  The listing
`ns` was taken before the loop; each iteration re-reads the live
filesystem.  `step` is the recursive call at the remaining fuel. -/
def copyChildrenAux (step : List String → List String → Entry → Option Entry) :
    List String → List String → List String → Entry → Option Entry
  | [], _, _, fs => some fs
  | n :: rest, src, dest, fs =>
    match step (src ++ [n]) (dest ++ [n]) fs with
    | none => none
    | some fs2 => copyChildrenAux step rest src dest fs2

/-- Lines 74-89 of the script:

```
function copyRecursive(src, dest) {
  if (!fs.existsSync(src)) return
  const stats = fs.statSync(src)
  if (stats.isDirectory()) {
    if (!fs.existsSync(dest)) { fs.mkdirSync(dest, { recursive: true }) }
    fs.readdirSync(src).forEach((item) => {
      copyRecursive(path.join(src, item), path.join(dest, item))
    })
  } else {
    fs.copyFileSync(src, dest)
  }
}
``` -/
def copyRecursive : Nat → List String → List String → Entry → Option Entry
  | 0, _, _, _ => none
  | fuel + 1, src, dest, fs =>
    match lookup src fs with
    | none => some fs
    | some (.file c) => writeFileAt dest c fs
    | some (.dir ch) =>
      match (if existsSync dest fs then some fs else mkdirp dest fs) with
      | none => none
      | some fs1 =>
        copyChildrenAux (fun s d g => copyRecursive fuel s d g) ch.names src dest fs1

/-- The fixed output root `.vercel/output` (line 7). -/
def outputDir : List String := [".vercel", "output"]

/-- The fixed static-assets subdirectory `.vercel/output/static`
(line 8). -/
def staticDir : List String := [".vercel", "output", "static"]

/-- The fixed nested bundle directory `dist/_expo/static/js/web`
(line 25). -/
def jsDirPath : List String := ["dist", "_expo", "static", "js", "web"]

/-- Lines 10-17 of the script: remove a pre-existing `.vercel/output`
recursively, then create `.vercel/output/static` and
`.vercel/output/config`. -/
def resetOutput (fs : Entry) : Option Entry :=
  let fs1 := if existsSync outputDir fs then removePath outputDir fs else fs
  match mkdirp staticDir fs1 with
  | none => none
  | some fs2 => mkdirp (outputDir ++ ["config"]) fs2

/-- Line 21 of the script: `copyRecursive('dist', staticDir)`, run with a
fuel exceeding the height of the tree. -/
def mirrorDist (fs : Entry) : Option Entry :=
  copyRecursive (fs.height + 1) ["dist"] staticDir fs

/-- Line 28 of the script: the bundle name test
`f.startsWith('AppEntry') && f.endsWith('.js')`. -/
def isBundleName (f : String) : Bool :=
  startsWithL f.toList "AppEntry".toList && endsWithL f.toList ".js".toList

/-- Lines 25-34 of the script: when `dist/_expo/static/js/web` exists, list
it, find the first name matching the bundle test and copy that file to
`staticDir/bundle.js`.  `readdirSync` of a file throws (`none`); no
directory or no match is a silent skip. -/
def promoteBundle (fs : Entry) : Option Entry :=
  match lookup jsDirPath fs with
  | none => some fs
  | some (.file _) => none
  | some (.dir files) =>
    match files.names.find? isBundleName with
    | none => some fs
    | some jsFile => copyFile (jsDirPath ++ [jsFile]) (staticDir ++ ["bundle.js"]) fs

/-- Lines 38-44 of the script: when `staticDir/index.html` exists, read it,
replace the first `src="...AppEntry....js"` attribute with
`src="/bundle.js"` and write it back.  `readFileSync` of a directory
throws (`none`). -/
def rewriteIndex (fs : Entry) : Option Entry :=
  match lookup (staticDir ++ ["index.html"]) fs with
  | none => some fs
  | some (.dir _) => none
  | some (.file h) => writeFileAt (staticDir ++ ["index.html"]) (replaceAppEntry h) fs

/-- Line 70 of the script: write the rendered manifest to
`.vercel/output/config.json` (at the output root, not in `config/`). -/
def writeConfig (fs : Entry) : Option Entry :=
  writeFileAt (outputDir ++ ["config.json"]) configText fs

/-- The whole script, lines 7-70: the five phases in source order. -/
def build (fs : Entry) : Option Entry :=
  match resetOutput fs with
  | none => none
  | some fs1 =>
    match mirrorDist fs1 with
    | none => none
    | some fs2 =>
      match promoteBundle fs2 with
      | none => none
      | some fs3 =>
        match rewriteIndex fs3 with
        | none => none
        | some fs4 => writeConfig fs4

/-! ## The model used to state the output of the packager

The correctness lemmas below show that a successful run turns the output
root into an explicit function of the children of `dist`.  The pure model
of the promotion and rewrite phases acts on the mirrored static listing
directly. -/

/-- The bundle directory path relative to `dist`. -/
def jsRel : List String := ["_expo", "static", "js", "web"]

/-- The pure model of the promotion phase (lines 25-34) acting on the
children `d` of `dist`: `none` models the crash paths (`readdirSync` of a
file, `copyFileSync` of a directory source, `copyFileSync` onto a
directory destination). -/
def promoteJs (d : Entries) : Option Entries :=
  match lookup jsRel (.dir d) with
  | none => some d
  | some (.file _) => none
  | some (.dir files) =>
    match files.names.find? isBundleName with
    | none => some d
    | some n =>
      match files.find? n with
      | some (.file c) =>
        match d.find? "bundle.js" with
        | some (.dir _) => none
        | _ => some (d.insert "bundle.js" (.file c))
      | _ => none

/-- The pure model of the rewrite phase (lines 38-44) acting on the static
listing. -/
def rewriteHtml (st : Entries) : Option Entries :=
  match st.find? "index.html" with
  | none => some st
  | some (.dir _) => none
  | some (.file h) => some (st.insert "index.html" (.file (replaceAppEntry h)))

/-- The pure model of phases 3 and 4 together: what the static listing
becomes, starting from a mirrored copy of the children of `dist`. -/
def processStatic (d : Entries) : Option Entries :=
  match promoteJs d with
  | none => none
  | some s1 => rewriteHtml s1

/-- The children of the output root after a successful run whose final
static listing is `s`. -/
def outTree (s : Entries) : Entries :=
  .cons "static" (.dir s) (.cons "config" (.dir .nil)
    (.cons "config.json" (.file configText) .nil))

/-- The guard of the reset phase: `.vercel` is absent or is a directory
(when it exists as a file, `mkdirSync` on line 16 throws and the script
dies before producing anything). -/
def vercelOk (fs : Entry) : Bool :=
  match lookup [".vercel"] fs with
  | none => true
  | some (.dir _) => true
  | some (.file _) => false

/-! ## Listing lemmas -/

/-- Induction on a listing alone (the generic recursor of the mutual
inductive has two motives; here the node motive is trivial). -/
theorem Entries.inductionOn {motive : Entries → Prop} (ch : Entries)
    (nil : motive .nil)
    (cons : ∀ n e rest, motive rest → motive (.cons n e rest)) : motive ch :=
  Entries.rec (motive_1 := fun _ => True) (motive_2 := motive)
    (fun _ => trivial) (fun _ _ => trivial) nil
    (fun n e rest _ hr => cons n e rest hr) ch

theorem Entries.hasName_eq_isSome_find? (ch : Entries) (n : String) :
    ch.hasName n = (ch.find? n).isSome := by
  induction ch using Entries.inductionOn with
  | nil => rfl
  | cons m e rest ih =>
    simp only [Entries.hasName, Entries.find?]
    by_cases h : m = n <;> simp [h, ih]

theorem Entries.find?_eq_none_of_hasName (ch : Entries) (n : String)
    (h : ch.hasName n = false) : ch.find? n = none := by
  rw [Entries.hasName_eq_isSome_find?] at h
  cases hf : ch.find? n with
  | none => rfl
  | some e => rw [hf] at h; simp at h

theorem Entries.find?_set_self (ch : Entries) (n : String) (e : Entry)
    (h : ch.hasName n = true) : (ch.set n e).find? n = some e := by
  induction ch using Entries.inductionOn with
  | nil => simp [Entries.hasName] at h
  | cons m e0 rest ih =>
    simp only [Entries.hasName, Bool.or_eq_true] at h
    simp only [Entries.set]
    by_cases hm : m = n
    · simp [Entries.find?, hm]
    · have hr : rest.hasName n = true := by
        rcases h with h | h
        · exact absurd (by simpa using h) hm
        · exact h
      simp [Entries.find?, hm, ih hr]

theorem Entries.find?_set_ne (ch : Entries) (n m : String) (e : Entry)
    (h : m ≠ n) : (ch.set n e).find? m = ch.find? m := by
  induction ch using Entries.inductionOn with
  | nil => rfl
  | cons k e0 rest ih =>
    simp only [Entries.set]
    by_cases hk : k = n
    · subst hk
      simp [Entries.find?, Ne.symm h]
    · simp only [if_neg hk, Entries.find?]
      by_cases hkm : k = m <;> simp [hkm, ih]

theorem Entries.find?_push (ch : Entries) (n m : String) (e : Entry) :
    (ch.push n e).find? m =
      match ch.find? m with
      | some x => some x
      | none => if n = m then some e else none := by
  induction ch using Entries.inductionOn with
  | nil => rfl
  | cons k e0 rest ih =>
    simp only [Entries.push, Entries.find?]
    by_cases hk : k = m <;> simp [hk, ih]

theorem Entries.find?_insert_self (ch : Entries) (n : String) (e : Entry) :
    (ch.insert n e).find? n = some e := by
  unfold Entries.insert
  by_cases h : ch.hasName n = true
  · simp [h, Entries.find?_set_self ch n e h]
  · have hnone := Entries.find?_eq_none_of_hasName ch n (by simpa using h)
    simp [h, Entries.find?_push, hnone]

theorem Entries.find?_insert_ne (ch : Entries) (n m : String) (e : Entry)
    (h : m ≠ n) : (ch.insert n e).find? m = ch.find? m := by
  unfold Entries.insert
  by_cases hh : ch.hasName n
  · simp [hh, Entries.find?_set_ne ch n m e h]
  · rw [if_neg (by simpa using hh), Entries.find?_push]
    cases hf : ch.find? m <;> simp [Ne.symm h]

theorem Entries.remove_of_hasName_eq_false (ch : Entries) (n : String)
    (h : ch.hasName n = false) : ch.remove n = ch := by
  induction ch using Entries.inductionOn with
  | nil => rfl
  | cons m e rest ih =>
    simp only [Entries.hasName, Bool.or_eq_false_iff] at h
    have hm : m ≠ n := by simpa using h.1
    simp [Entries.remove, hm, ih h.2]

theorem Entries.find?_remove_ne (ch : Entries) (n m : String) (h : m ≠ n) :
    (ch.remove n).find? m = ch.find? m := by
  induction ch using Entries.inductionOn with
  | nil => rfl
  | cons k e rest ih =>
    simp only [Entries.remove]
    by_cases hk : k = n
    · subst hk
      simp [Entries.find?, Ne.symm h]
    · simp only [if_neg hk, Entries.find?]
      by_cases hkm : k = m <;> simp [hkm, ih]

theorem Entries.find?_remove_self (ch : Entries) (n : String)
    (hwf : ch.wf = true) : (ch.remove n).find? n = none := by
  induction ch using Entries.inductionOn with
  | nil => rfl
  | cons k e rest ih =>
    simp only [Entries.wf, Bool.and_eq_true, Bool.not_eq_true'] at hwf
    simp only [Entries.remove]
    by_cases hk : k = n
    · subst hk
      rw [if_pos rfl]
      exact Entries.find?_eq_none_of_hasName rest k hwf.1.1
    · simp [Entries.find?, hk, ih hwf.2]

theorem Entries.set_eq_of_find? (ch : Entries) (n : String) (e : Entry)
    (h : ch.find? n = some e) : ch.set n e = ch := by
  induction ch using Entries.inductionOn with
  | nil => simp [Entries.find?] at h
  | cons k e0 rest ih =>
    simp only [Entries.find?] at h
    simp only [Entries.set]
    by_cases hk : k = n
    · rw [if_pos hk] at h
      simp [hk, Option.some.injEq] at h
      simp [hk, h]
    · rw [if_neg hk] at h
      simp [hk, ih h]

theorem Entries.set_set (ch : Entries) (n : String) (a b : Entry) :
    (ch.set n a).set n b = ch.set n b := by
  induction ch using Entries.inductionOn with
  | nil => rfl
  | cons k e0 rest ih =>
    simp only [Entries.set]
    by_cases hk : k = n <;> simp [hk, Entries.set, ih]

theorem Entries.hasName_push (ch : Entries) (n m : String) (e : Entry) :
    (ch.push n e).hasName m = (ch.hasName m || n = m) := by
  induction ch using Entries.inductionOn with
  | nil => simp [Entries.push, Entries.hasName]
  | cons k e0 rest ih =>
    simp [Entries.push, Entries.hasName, ih, Bool.or_assoc]

theorem Entries.hasName_set (ch : Entries) (n m : String) (e : Entry) :
    (ch.set n e).hasName m = ch.hasName m := by
  induction ch using Entries.inductionOn with
  | nil => rfl
  | cons k e0 rest ih =>
    simp only [Entries.set]
    by_cases hk : k = n <;> simp [hk, Entries.hasName, ih]

theorem Entries.hasName_remove_le (ch : Entries) (n m : String)
    (h : (ch.remove n).hasName m = true) : ch.hasName m = true := by
  induction ch using Entries.inductionOn with
  | nil => simpa [Entries.remove] using h
  | cons k e rest ih =>
    simp only [Entries.remove] at h
    by_cases hk : k = n
    · rw [if_pos hk] at h
      simp [Entries.hasName, h]
    · rw [if_neg hk] at h
      simp only [Entries.hasName, Bool.or_eq_true] at h ⊢
      rcases h with h | h
      · exact Or.inl h
      · exact Or.inr (ih h)

theorem Entries.wf_set (ch : Entries) (n : String) (e : Entry)
    (hch : ch.wf = true) (he : e.wf = true) : (ch.set n e).wf = true := by
  induction ch using Entries.inductionOn with
  | nil => rfl
  | cons k e0 rest ih =>
    simp only [Entries.wf, Bool.and_eq_true, Bool.not_eq_true'] at hch
    simp only [Entries.set]
    by_cases hk : k = n
    · subst hk
      simp [Entries.wf, hch.1.1, he, hch.2]
    · simp [hk, Entries.wf, Entries.hasName_set, hch.1.1, hch.1.2, ih hch.2]

theorem Entries.wf_push (ch : Entries) (n : String) (e : Entry)
    (hch : ch.wf = true) (he : e.wf = true) (hn : ch.hasName n = false) :
    (ch.push n e).wf = true := by
  induction ch using Entries.inductionOn with
  | nil => simp [Entries.push, Entries.wf, Entries.hasName, he]
  | cons k e0 rest ih =>
    simp only [Entries.wf, Bool.and_eq_true, Bool.not_eq_true'] at hch
    simp only [Entries.hasName, Bool.or_eq_false_iff] at hn
    simp only [Entries.push, Entries.wf, Bool.and_eq_true, Bool.not_eq_true']
    refine ⟨⟨?_, hch.1.2⟩, ih hch.2 hn.2⟩
    rw [Entries.hasName_push]
    have hne : ¬ k = n := by simpa using hn.1
    simp [hch.1.1, Ne.symm hne]

theorem Entries.wf_insert (ch : Entries) (n : String) (e : Entry)
    (hch : ch.wf = true) (he : e.wf = true) : (ch.insert n e).wf = true := by
  unfold Entries.insert
  by_cases h : ch.hasName n
  · simp [h, Entries.wf_set ch n e hch he]
  · simp only [Bool.not_eq_true] at h
    simp [h, Entries.wf_push ch n e hch he h]

theorem Entries.wf_remove (ch : Entries) (n : String)
    (hch : ch.wf = true) : (ch.remove n).wf = true := by
  induction ch using Entries.inductionOn with
  | nil => rfl
  | cons k e rest ih =>
    simp only [Entries.wf, Bool.and_eq_true, Bool.not_eq_true'] at hch
    simp only [Entries.remove]
    by_cases hk : k = n
    · simp [hk, hch.2]
    · simp only [if_neg hk, Entries.wf, Bool.and_eq_true, Bool.not_eq_true']
      refine ⟨⟨?_, hch.1.2⟩, ih hch.2⟩
      cases hr : (rest.remove n).hasName k
      · rfl
      · exact absurd (Entries.hasName_remove_le rest n k hr) (by simp [hch.1.1])

theorem Entries.wf_of_find? (ch : Entries) (n : String) (e : Entry)
    (hch : ch.wf = true) (h : ch.find? n = some e) : e.wf = true := by
  induction ch using Entries.inductionOn with
  | nil => simp [Entries.find?] at h
  | cons k e0 rest ih =>
    simp only [Entries.wf, Bool.and_eq_true, Bool.not_eq_true'] at hch
    simp only [Entries.find?] at h
    by_cases hk : k = n
    · rw [if_pos hk] at h
      cases h
      exact hch.1.2
    · rw [if_neg hk] at h
      exact ih hch.2 h

theorem Entries.height_of_find? (ch : Entries) (n : String) (e : Entry)
    (h : ch.find? n = some e) : e.height < ch.height := by
  induction ch using Entries.inductionOn with
  | nil => simp [Entries.find?] at h
  | cons k e0 rest ih =>
    simp only [Entries.find?] at h
    simp only [Entries.height]
    by_cases hk : k = n
    · rw [if_pos hk] at h
      cases h
      omega
    · rw [if_neg hk] at h
      have := ih h
      omega

/-- Concatenation of listings, used to describe the state grown child by
child during the mirror phase. -/
def Entries.appendAll : Entries → Entries → Entries
  | .nil, ys => ys
  | .cons n e rest, ys => .cons n e (rest.appendAll ys)

theorem Entries.appendAll_nil (ch : Entries) : ch.appendAll .nil = ch := by
  induction ch using Entries.inductionOn with
  | nil => rfl
  | cons k e rest ih => simp [Entries.appendAll, ih]

theorem Entries.push_appendAll (ch : Entries) (n : String) (e : Entry)
    (rest : Entries) :
    (ch.push n e).appendAll rest = ch.appendAll (.cons n e rest) := by
  induction ch using Entries.inductionOn with
  | nil => rfl
  | cons k e0 t ih => simp [Entries.push, Entries.appendAll, ih]

theorem Entries.hasName_of_mem_names (ch : Entries) (n : String)
    (h : n ∈ ch.names) : ch.hasName n = true := by
  induction ch using Entries.inductionOn with
  | nil => simp [Entries.names] at h
  | cons k e rest ih =>
    simp only [Entries.names, List.mem_cons] at h
    simp only [Entries.hasName, Bool.or_eq_true]
    rcases h with h | h
    · exact Or.inl (by simp [h])
    · exact Or.inr (ih h)

/-! ## Path and lookup lemmas -/

theorem lookup_append (p q : List String) (fs : Entry) :
    lookup (p ++ q) fs = (lookup p fs).bind (fun e => lookup q e) := by
  induction p generalizing fs with
  | nil => rfl
  | cons n p ih =>
    cases fs with
    | file c => simp [lookup]
    | dir ch =>
      simp only [List.cons_append, lookup]
      cases ch.find? n with
      | none => simp
      | some sub => simpa using ih sub

theorem lookup_dirAlong (p q : List String) (fs : Entry) (e : Entry)
    (h : lookup (p ++ q) fs = some e) (hq : q ≠ []) :
    ∃ ch, lookup p fs = some (.dir ch) := by
  rw [lookup_append] at h
  cases hp : lookup p fs with
  | none => rw [hp] at h; simp at h
  | some x =>
    rw [hp] at h
    simp only [Option.some_bind] at h
    cases x with
    | file c =>
      cases q with
      | nil => exact absurd rfl hq
      | cons a q2 => simp [lookup] at h
    | dir ch => exact ⟨ch, rfl⟩

theorem height_le_of_lookup (p : List String) (fs e : Entry)
    (h : lookup p fs = some e) : e.height ≤ fs.height := by
  induction p generalizing fs with
  | nil =>
    simp only [lookup, Option.some.injEq] at h
    subst h
    exact Nat.le_refl _
  | cons n p ih =>
    cases fs with
    | file c => simp [lookup] at h
    | dir ch =>
      simp only [lookup] at h
      cases hf : ch.find? n with
      | none => rw [hf] at h; simp at h
      | some sub =>
        rw [hf] at h
        have h1 := Entries.height_of_find? ch n sub hf
        have h2 := ih sub h
        simp only [Entry.height]
        omega

theorem height_lt_of_lookup (p : List String) (fs e : Entry)
    (h : lookup p fs = some e) (hp : p ≠ []) : e.height < fs.height := by
  cases p with
  | nil => exact absurd rfl hp
  | cons n p =>
    cases fs with
    | file c => simp [lookup] at h
    | dir ch =>
      simp only [lookup] at h
      cases hf : ch.find? n with
      | none => rw [hf] at h; simp at h
      | some sub =>
        rw [hf] at h
        have h1 := Entries.height_of_find? ch n sub hf
        have h2 := height_le_of_lookup p sub e h
        simp only [Entry.height]
        omega

theorem wf_of_lookup (p : List String) (fs e : Entry)
    (hwf : fs.wf = true) (h : lookup p fs = some e) : e.wf = true := by
  induction p generalizing fs with
  | nil =>
    simp only [lookup, Option.some.injEq] at h
    subst h
    exact hwf
  | cons n p ih =>
    cases fs with
    | file c => simp [lookup] at h
    | dir ch =>
      simp only [lookup] at h
      cases hf : ch.find? n with
      | none => rw [hf] at h; simp at h
      | some sub =>
        rw [hf] at h
        exact ih sub (Entries.wf_of_find? ch n sub hwf hf) h

/-- `isUnder p q` holds when `p` is an initial segment of `q` (the node at
`q` lies in the subtree rooted at `p`). -/
def isUnder : List String → List String → Bool
  | [], _ => true
  | _ :: _, [] => false
  | a :: p, b :: q => a = b && isUnder p q

/-- Two paths are comparable when one lies under the other; a mutation at
`p` can only affect lookups at paths comparable with `p`. -/
def touches (p q : List String) : Bool :=
  isUnder p q || isUnder q p

theorem touches_extend (p q r : List String) (h : touches p q = false) :
    touches (p ++ r) q = false := by
  induction p generalizing q with
  | nil => simp [touches, isUnder] at h
  | cons a p ih =>
    cases q with
    | nil => simp [touches, isUnder] at h
    | cons b q =>
      simp only [touches, isUnder, Bool.or_eq_false_iff, Bool.and_eq_false_iff] at h ⊢
      by_cases hab : a = b
      · subst hab
        have h1 : isUnder p q = false := by
          rcases h.1 with h1 | h1
          · simp at h1
          · exact h1
        have h2 : isUnder q p = false := by
          rcases h.2 with h2 | h2
          · simp at h2
          · exact h2
        have := ih q (by simp [touches, h1, h2])
        simp only [touches, Bool.or_eq_false_iff] at this
        exact ⟨Or.inr this.1, Or.inr this.2⟩
      · exact ⟨Or.inl (by simp [hab]), Or.inl (by simp [Ne.symm hab])⟩

/-- Overwrite the subtree at a path: the specification combinator used to
describe every write the script performs.  Navigation follows existing
directories; the final component is written in place when present and
appended when absent. -/
def setPath : List String → Entry → Entry → Option Entry
  | [], e, _ => some e
  | n :: p, e, .dir ch =>
    match p with
    | [] => some (.dir (ch.insert n e))
    | _ :: _ =>
      match ch.find? n with
      | some sub => (setPath p e sub).map (fun s => .dir (ch.set n s))
      | none => none
  | _ :: _, _, .file _ => none

theorem setPath_lookup_self (p : List String) (e fs fs2 : Entry)
    (h : setPath p e fs = some fs2) : lookup p fs2 = some e := by
  induction p generalizing fs fs2 with
  | nil =>
    simp only [setPath, Option.some.injEq] at h
    subst h
    rfl
  | cons n p ih =>
    cases fs with
    | file c => simp [setPath] at h
    | dir ch =>
      cases p with
      | nil =>
        simp only [setPath, Option.some.injEq] at h
        subst h
        simp [lookup, Entries.find?_insert_self]
      | cons m p2 =>
        simp only [setPath] at h
        split at h
        · rename_i sub hf
          cases hs : setPath (m :: p2) e sub with
          | none => rw [hs] at h; simp at h
          | some sub2 =>
            rw [hs] at h
            simp only [Option.map_some', Option.some.injEq] at h
            subst h
            have hfind : (ch.set n sub2).find? n = some sub2 :=
              Entries.find?_set_self ch n sub2
                (by rw [Entries.hasName_eq_isSome_find?, hf]; rfl)
            simp [lookup, hfind, ih sub sub2 hs]
        · simp at h

theorem setPath_frame (p : List String) (e fs fs2 : Entry)
    (h : setPath p e fs = some fs2) (q : List String)
    (hq : touches p q = false) : lookup q fs2 = lookup q fs := by
  induction p generalizing q fs fs2 with
  | nil => simp [touches, isUnder] at hq
  | cons n p ih =>
    cases fs with
    | file c => simp [setPath] at h
    | dir ch =>
      cases q with
      | nil => simp [touches, isUnder] at hq
      | cons b q2 =>
        simp only [touches, isUnder, Bool.or_eq_false_iff, Bool.and_eq_false_iff] at hq
        by_cases hnb : n = b
        · subst hnb
          have h1 : isUnder p q2 = false := by
            rcases hq.1 with h1 | h1
            · simp at h1
            · exact h1
          have h2 : isUnder q2 p = false := by
            rcases hq.2 with h2 | h2
            · simp at h2
            · exact h2
          cases p with
          | nil => simp [isUnder] at h1
          | cons m p2 =>
            simp only [setPath] at h
            split at h
            · rename_i sub hf
              cases hs : setPath (m :: p2) e sub with
              | none => rw [hs] at h; simp at h
              | some sub2 =>
                rw [hs] at h
                simp only [Option.map_some', Option.some.injEq] at h
                subst h
                have hfind : (ch.set n sub2).find? n = some sub2 :=
                  Entries.find?_set_self ch n sub2
                    (by rw [Entries.hasName_eq_isSome_find?, hf]; rfl)
                simp only [lookup, hfind, hf]
                exact ih sub sub2 hs q2 (by simp [touches, h1, h2])
            · simp at h
        · cases p with
          | nil =>
            simp only [setPath, Option.some.injEq] at h
            subst h
            simp [lookup, Entries.find?_insert_ne ch n b e (Ne.symm hnb)]
          | cons m p2 =>
            simp only [setPath] at h
            split at h
            · rename_i sub hf
              cases hs : setPath (m :: p2) e sub with
              | none => rw [hs] at h; simp at h
              | some sub2 =>
                rw [hs] at h
                simp only [Option.map_some', Option.some.injEq] at h
                subst h
                simp [lookup, Entries.find?_set_ne ch n b sub2 (Ne.symm hnb)]
            · simp at h

theorem setPath_self (p : List String) (e fs : Entry)
    (h : lookup p fs = some e) : setPath p e fs = some fs := by
  induction p generalizing fs with
  | nil =>
    simp only [lookup, Option.some.injEq] at h
    subst h
    rfl
  | cons n p ih =>
    cases fs with
    | file c => simp [lookup] at h
    | dir ch =>
      simp only [lookup] at h
      cases hf : ch.find? n with
      | none => rw [hf] at h; simp at h
      | some sub =>
        rw [hf] at h
        cases p with
        | nil =>
          simp only [lookup, Option.some.injEq] at h
          subst h
          have hh : ch.hasName n = true := by
            rw [Entries.hasName_eq_isSome_find?, hf]; rfl
          simp [setPath, Entries.insert, hh, Entries.set_eq_of_find? ch n sub hf]
        | cons m p2 =>
          simp only [setPath, hf, ih sub h, Option.map_some', Option.some.injEq,
            Entries.set_eq_of_find? ch n sub hf]

theorem setPath_isSome_of_lookup (p : List String) (e fs x : Entry)
    (h : lookup p fs = some x) : (setPath p e fs).isSome = true := by
  induction p generalizing fs x with
  | nil => rfl
  | cons n p ih =>
    cases fs with
    | file c => simp [lookup] at h
    | dir ch =>
      simp only [lookup] at h
      cases hf : ch.find? n with
      | none => rw [hf] at h; simp at h
      | some sub =>
        rw [hf] at h
        cases p with
        | nil => simp [setPath]
        | cons m p2 =>
          have hsub : lookup (m :: p2) sub = some x := h
          simp only [setPath, hf]
          have := ih sub x hsub
          cases hs : setPath (m :: p2) e sub with
          | none => rw [hs] at this; simp at this
          | some sub2 => simp

theorem Entries.set_push_self (ch : Entries) (n : String) (a b : Entry)
    (h : ch.hasName n = false) : (ch.push n a).set n b = ch.push n b := by
  induction ch using Entries.inductionOn with
  | nil => simp [Entries.push, Entries.set]
  | cons k e rest ih =>
    simp only [Entries.hasName, Bool.or_eq_false_iff] at h
    have hk : ¬ k = n := by simpa using h.1
    simp [Entries.push, Entries.set, hk, ih h.2]

theorem Entries.insert_insert (ch : Entries) (n : String) (a b : Entry) :
    (ch.insert n a).insert n b = ch.insert n b := by
  unfold Entries.insert
  by_cases h : ch.hasName n
  · simp [h, Entries.hasName_set, Entries.set_set]
  · simp only [Bool.not_eq_true] at h
    simp [h, Entries.hasName_push, Entries.set_push_self ch n a b h]

theorem setPath_setPath (p : List String) (e e2 fs fs1 : Entry)
    (h : setPath p e fs = some fs1) :
    setPath p e2 fs1 = setPath p e2 fs := by
  induction p generalizing fs fs1 with
  | nil => rfl
  | cons n p ih =>
    cases fs with
    | file c => simp [setPath] at h
    | dir ch =>
      cases p with
      | nil =>
        simp only [setPath, Option.some.injEq] at h
        subst h
        simp [setPath, Entries.insert_insert]
      | cons m p2 =>
        simp only [setPath] at h
        split at h
        · rename_i sub hf
          cases hs : setPath (m :: p2) e sub with
          | none => rw [hs] at h; simp at h
          | some sub2 =>
            rw [hs] at h
            simp only [Option.map_some', Option.some.injEq] at h
            subst h
            have hfind : (ch.set n sub2).find? n = some sub2 :=
              Entries.find?_set_self ch n sub2
                (by rw [Entries.hasName_eq_isSome_find?, hf]; rfl)
            simp only [setPath, hfind, hf, ih sub sub2 hs]
            cases setPath (m :: p2) e2 sub with
            | none => rfl
            | some s => simp [Entries.set_set]
        · simp at h

theorem Entries.insert_eq_set_of_hasName (ch : Entries) (n : String) (e : Entry)
    (h : ch.hasName n = true) : ch.insert n e = ch.set n e := by
  simp [Entries.insert, h]

theorem setPath_graft (q : List String) (n : String) (e fs : Entry)
    (ch : Entries) (h : lookup q fs = some (.dir ch)) :
    setPath (q ++ [n]) e fs = setPath q (.dir (ch.insert n e)) fs := by
  induction q generalizing fs with
  | nil =>
    simp only [lookup, Option.some.injEq] at h
    subst h
    rfl
  | cons m q2 ih =>
    cases fs with
    | file c => simp [lookup] at h
    | dir ch0 =>
      simp only [lookup] at h
      cases hf : ch0.find? m with
      | none => rw [hf] at h; simp at h
      | some sub =>
        rw [hf] at h
        cases q2 with
        | nil =>
          simp only [lookup, Option.some.injEq] at h
          subst h
          have hh : ch0.hasName m = true := by
            rw [Entries.hasName_eq_isSome_find?, hf]; rfl
          simp [setPath, hf, Entries.insert_eq_set_of_hasName ch0 m _ hh]
        | cons m2 q3 =>
          have hsub : lookup (m2 :: q3) sub = some (.dir ch) := h
          have hrec := ih sub hsub
          simp only [List.cons_append] at hrec ⊢
          simp only [setPath, hf]
          rw [hrec]

theorem setPath_wf (p : List String) (e fs fs2 : Entry)
    (hwf : fs.wf = true) (he : e.wf = true)
    (h : setPath p e fs = some fs2) : fs2.wf = true := by
  induction p generalizing fs fs2 with
  | nil =>
    simp only [setPath, Option.some.injEq] at h
    subst h
    exact he
  | cons n p ih =>
    cases fs with
    | file c => simp [setPath] at h
    | dir ch =>
      cases p with
      | nil =>
        simp only [setPath, Option.some.injEq] at h
        subst h
        exact Entries.wf_insert ch n e hwf he
      | cons m p2 =>
        simp only [setPath] at h
        split at h
        · rename_i sub hf
          cases hs : setPath (m :: p2) e sub with
          | none => rw [hs] at h; simp at h
          | some sub2 =>
            rw [hs] at h
            simp only [Option.map_some', Option.some.injEq] at h
            subst h
            have hsubwf := Entries.wf_of_find? ch n sub hwf hf
            exact Entries.wf_set ch n sub2 hwf (ih sub sub2 hsubwf hs)
        · simp at h

theorem setPath_rootDir (n : List String) (e fs fs2 : Entry) (ch : Entries)
    (hfs : fs = .dir ch) (hn : n ≠ [])
    (h : setPath n e fs = some fs2) : ∃ ch2, fs2 = .dir ch2 := by
  subst hfs
  cases n with
  | nil => exact absurd rfl hn
  | cons a p =>
    cases p with
    | nil =>
      simp only [setPath, Option.some.injEq] at h
      exact ⟨_, h.symm⟩
    | cons m p2 =>
      simp only [setPath] at h
      split at h
      · rename_i sub hf
        cases hs : setPath (m :: p2) e sub with
        | none => rw [hs] at h; simp at h
        | some sub2 =>
          rw [hs] at h
          simp only [Option.map_some', Option.some.injEq] at h
          exact ⟨_, h.symm⟩
      · simp at h

/-- The parent chain of the (nonempty) path exists as directories: the
success condition of a plain (non-recursive) write at the path. -/
def parentOk : List String → Entry → Bool
  | [], _ => false
  | n :: p, .dir ch =>
    match p with
    | [] => true
    | _ :: _ =>
      match ch.find? n with
      | some sub => parentOk p sub
      | none => false
  | _ :: _, .file _ => false

theorem parentOk_append_single (q : List String) (n : String) (fs : Entry)
    (ch : Entries) (h : lookup q fs = some (.dir ch)) :
    parentOk (q ++ [n]) fs = true := by
  induction q generalizing fs with
  | nil =>
    simp only [lookup, Option.some.injEq] at h
    subst h
    rfl
  | cons m q2 ih =>
    cases fs with
    | file c => simp [lookup] at h
    | dir ch0 =>
      simp only [lookup] at h
      cases hf : ch0.find? m with
      | none => rw [hf] at h; simp at h
      | some sub =>
        rw [hf] at h
        cases q2 with
        | nil =>
          simp only [lookup, Option.some.injEq] at h
          subst h
          simp [parentOk, hf]
        | cons m2 q3 =>
          have hsub : lookup (m2 :: q3) sub = some (.dir ch) := h
          simp only [List.cons_append, parentOk, hf]
          have := ih sub hsub
          simpa [List.cons_append] using this

theorem setPath_isSome_of_parentOk (p : List String) (e fs : Entry)
    (h : parentOk p fs = true) : (setPath p e fs).isSome = true := by
  induction p generalizing fs with
  | nil => simp [parentOk] at h
  | cons n p ih =>
    cases fs with
    | file c => simp [parentOk] at h
    | dir ch =>
      cases p with
      | nil => simp [setPath]
      | cons m p2 =>
        simp only [parentOk] at h
        cases hf : ch.find? n with
        | none => rw [hf] at h; simp at h
        | some sub =>
          rw [hf] at h
          simp only [setPath, hf]
          have := ih sub h
          cases hs : setPath (m :: p2) e sub with
          | none => rw [hs] at this; simp at this
          | some sub2 => simp

theorem mkdirp_eq_setPath (p : List String) (fs : Entry)
    (hnone : lookup p fs = none) (hok : parentOk p fs = true) :
    mkdirp p fs = setPath p (.dir .nil) fs := by
  induction p generalizing fs with
  | nil => simp [parentOk] at hok
  | cons n p ih =>
    cases fs with
    | file c => simp [parentOk] at hok
    | dir ch =>
      cases p with
      | nil =>
        have hf : ch.find? n = none := by
          simp only [lookup] at hnone
          cases hf : ch.find? n with
          | none => rfl
          | some sub => rw [hf] at hnone; simp at hnone
        have hh : ch.hasName n = false := by
          rw [Entries.hasName_eq_isSome_find?, hf]; rfl
        simp [mkdirp, hf, setPath, Entries.insert, hh]
      | cons m p2 =>
        simp only [parentOk] at hok
        cases hf : ch.find? n with
        | none => rw [hf] at hok; simp at hok
        | some sub =>
          rw [hf] at hok
          have hsub : lookup (m :: p2) sub = none := by
            simp only [lookup, hf] at hnone
            exact hnone
          simp only [mkdirp, setPath, hf, ih sub hsub hok]

theorem writeFileAt_eq_setPath (p : List String) (c : String) (fs : Entry)
    (hp : p ≠ [])
    (hd : lookup p fs = none ∨ ∃ c0, lookup p fs = some (.file c0)) :
    writeFileAt p c fs = setPath p (.file c) fs := by
  induction p generalizing fs with
  | nil => exact absurd rfl hp
  | cons n p ih =>
    cases fs with
    | file c0 => rfl
    | dir ch =>
      cases p with
      | nil =>
        simp only [writeFileAt, setPath]
        cases hf : ch.find? n with
        | none => rfl
        | some sub =>
          cases sub with
          | file c1 => rfl
          | dir ch1 =>
            have : lookup [n] (Entry.dir ch) = some (.dir ch1) := by
              simp [lookup, hf]
            rcases hd with hd | ⟨c0, hd⟩
            · rw [this] at hd; simp at hd
            · rw [this] at hd; simp at hd
      | cons m p2 =>
        cases hf : ch.find? n with
        | none => simp [writeFileAt, setPath, hf]
        | some sub =>
          have hd2 : lookup (m :: p2) sub = none ∨
              ∃ c0, lookup (m :: p2) sub = some (.file c0) := by
            rcases hd with hd | ⟨c0, hd⟩
            · simp only [lookup, hf] at hd
              exact Or.inl hd
            · simp only [lookup, hf] at hd
              exact Or.inr ⟨c0, hd⟩
          have hrw := ih sub (by simp) hd2
          simp [writeFileAt, setPath, hf, hrw]

/-! ## Correctness of the mirror phase

`copyRecursive('dist', staticDir)` copies the source subtree into the
destination.  Source and destination live under distinct root children
(`dist` versus `.vercel`), so the writes below the destination never
disturb the subtree being read; `sepRoots` captures exactly that. -/

/-- Both paths are nonempty and start with distinct root components. -/
def sepRoots : List String → List String → Bool
  | a :: _, b :: _ => !(a = b)
  | _, _ => false

theorem sepRoots_touches (p q : List String) (h : sepRoots p q = true) :
    touches p q = false := by
  cases p with
  | nil => simp [sepRoots] at h
  | cons a p2 =>
    cases q with
    | nil => simp [sepRoots] at h
    | cons b q2 =>
      simp only [sepRoots, Bool.not_eq_true'] at h
      have hab : ¬ a = b := by simpa using h
      simp [touches, isUnder, hab, Ne.symm hab]

theorem sepRoots_touches_rev (p q : List String) (h : sepRoots p q = true) :
    touches q p = false := by
  cases p with
  | nil => simp [sepRoots] at h
  | cons a p2 =>
    cases q with
    | nil => simp [sepRoots] at h
    | cons b q2 =>
      simp only [sepRoots, Bool.not_eq_true'] at h
      have hab : ¬ a = b := by simpa using h
      simp [touches, isUnder, hab, Ne.symm hab]

theorem sepRoots_append (p q r r2 : List String) (h : sepRoots p q = true) :
    sepRoots (p ++ r) (q ++ r2) = true := by
  cases p with
  | nil => simp [sepRoots] at h
  | cons a p2 =>
    cases q with
    | nil => simp [sepRoots] at h
    | cons b q2 => simpa [sepRoots] using h

theorem copyChildrenAux_spec (fuel : Nat)
    (IH : ∀ e src dest fs, e.height < fuel → e.wf = true →
        lookup src fs = some e → sepRoots src dest = true →
        lookup dest fs = none → parentOk dest fs = true →
        copyRecursive fuel src dest fs = setPath dest e fs) :
    ∀ rem, ∀ full cur : Entries, ∀ src dest : List String, ∀ fs : Entry,
      (∀ n e, rem.find? n = some e → full.find? n = some e) →
      rem.wf = true →
      rem.height ≤ fuel →
      lookup src fs = some (.dir full) →
      sepRoots src dest = true →
      lookup dest fs = some (.dir cur) →
      (∀ n, rem.hasName n = true → cur.hasName n = false) →
      copyChildrenAux (fun s d g => copyRecursive fuel s d g) rem.names src dest fs
        = setPath dest (.dir (cur.appendAll rem)) fs := by
  intro rem
  induction rem using Entries.inductionOn with
  | nil =>
    intro full cur src dest fs _ _ _ _ _ hdest _
    rw [Entries.appendAll_nil]
    rw [setPath_self dest (.dir cur) fs hdest]
    rfl
  | cons n e rest ih =>
    intro full cur src dest fs hcoh hwf hh hsrc hsep hdest hfresh
    simp only [Entries.wf, Bool.and_eq_true, Bool.not_eq_true'] at hwf
    have hfreshn : rest.hasName n = false := hwf.1.1
    have hwe : e.wf = true := hwf.1.2
    have hwrest : rest.wf = true := hwf.2
    have hfull : full.find? n = some e := by
      apply hcoh
      simp [Entries.find?]
    have hsrcn : lookup (src ++ [n]) fs = some e := by
      rw [lookup_append, hsrc]
      simp [lookup, hfull]
    have hhe : e.height < fuel := by
      simp only [Entries.height] at hh
      omega
    have hhrest : rest.height ≤ fuel := by
      simp only [Entries.height] at hh
      omega
    have hsep2 : sepRoots (src ++ [n]) (dest ++ [n]) = true :=
      sepRoots_append src dest [n] [n] hsep
    have hcurn : cur.hasName n = false := by
      apply hfresh
      simp [Entries.hasName]
    have hdn : lookup (dest ++ [n]) fs = none := by
      rw [lookup_append, hdest]
      simp [lookup, Entries.find?_eq_none_of_hasName cur n hcurn]
    have hpo : parentOk (dest ++ [n]) fs = true :=
      parentOk_append_single dest n fs cur hdest
    have hstep : copyRecursive fuel (src ++ [n]) (dest ++ [n]) fs
        = setPath (dest ++ [n]) e fs :=
      IH e (src ++ [n]) (dest ++ [n]) fs hhe hwe hsrcn hsep2 hdn hpo
    have hgraft : setPath (dest ++ [n]) e fs
        = setPath dest (.dir (cur.insert n e)) fs :=
      setPath_graft dest n e fs cur hdest
    have hsome : (setPath dest (.dir (cur.insert n e)) fs).isSome = true :=
      setPath_isSome_of_lookup dest (.dir (cur.insert n e)) fs (.dir cur) hdest
    cases hfs2 : setPath dest (.dir (cur.insert n e)) fs with
    | none => rw [hfs2] at hsome; simp at hsome
    | some fs2 =>
      have hlhs : copyChildrenAux (fun s d g => copyRecursive fuel s d g)
          ((Entries.cons n e rest).names) src dest fs
          = copyChildrenAux (fun s d g => copyRecursive fuel s d g)
              rest.names src dest fs2 := by
        simp only [Entries.names, copyChildrenAux]
        rw [hstep, hgraft, hfs2]
      rw [hlhs]
      have hcoh2 : ∀ m x, rest.find? m = some x → full.find? m = some x := by
        intro m x hmx
        apply hcoh
        simp only [Entries.find?]
        rw [if_neg]
        · exact hmx
        · intro hnm
          subst hnm
          rw [Entries.find?_eq_none_of_hasName rest n hfreshn] at hmx
          cases hmx
      have hsrc2 : lookup src fs2 = some (.dir full) := by
        rw [setPath_frame dest (.dir (cur.insert n e)) fs fs2 hfs2 src
          (sepRoots_touches_rev src dest hsep)]
        exact hsrc
      have hdest2 : lookup dest fs2 = some (.dir (cur.insert n e)) :=
        setPath_lookup_self dest (.dir (cur.insert n e)) fs fs2 hfs2
      have hfresh2 : ∀ m, rest.hasName m = true → (cur.insert n e).hasName m = false := by
        intro m hm
        have hcm : cur.hasName m = false := by
          apply hfresh
          simp [Entries.hasName, hm]
        have hmn : ¬ n = m := by
          intro hnm
          subst hnm
          rw [hm] at hfreshn
          cases hfreshn
        rw [Entries.insert, if_neg (by simp [hcurn]), Entries.hasName_push]
        simp [hcm, hmn]
      have hih := ih full (cur.insert n e) src dest fs2 hcoh2 hwrest hhrest
        hsrc2 hsep hdest2 hfresh2
      rw [hih]
      rw [setPath_setPath dest (.dir (cur.insert n e))
        (.dir ((cur.insert n e).appendAll rest)) fs fs2 hfs2]
      rw [Entries.insert, if_neg (by simp [hcurn]), Entries.push_appendAll]

theorem copyRecursive_spec : ∀ fuel : Nat, ∀ e : Entry, ∀ src dest : List String,
    ∀ fs : Entry,
    e.height < fuel → e.wf = true → lookup src fs = some e →
    sepRoots src dest = true → lookup dest fs = none → parentOk dest fs = true →
    copyRecursive fuel src dest fs = setPath dest e fs := by
  intro fuel
  induction fuel with
  | zero =>
    intro e src dest fs hh _ _ _ _ _
    omega
  | succ f ihf =>
    intro e src dest fs hh hwf hsrc hsep hdn hpo
    have hdne : dest ≠ [] := by
      cases dest with
      | nil => cases src <;> simp [sepRoots] at hsep
      | cons b d2 => simp
    cases e with
    | file c =>
      have hlhs : copyRecursive (f + 1) src dest fs = writeFileAt dest c fs := by
        simp only [copyRecursive, hsrc]
      rw [hlhs]
      exact writeFileAt_eq_setPath dest c fs hdne (Or.inl hdn)
    | dir ch =>
      have hex : existsSync dest fs = false := by
        simp [existsSync, hdn]
      have hmk : mkdirp dest fs = setPath dest (.dir .nil) fs :=
        mkdirp_eq_setPath dest fs hdn hpo
      have hsome : (setPath dest (.dir Entries.nil) fs).isSome = true :=
        setPath_isSome_of_parentOk dest (.dir .nil) fs hpo
      cases hfs1 : setPath dest (.dir Entries.nil) fs with
      | none => rw [hfs1] at hsome; simp at hsome
      | some fs1 =>
        have hlhs : copyRecursive (f + 1) src dest fs
            = copyChildrenAux (fun s d g => copyRecursive f s d g)
                ch.names src dest fs1 := by
          simp only [copyRecursive, hsrc, hex, if_neg, Bool.false_eq_true,
            not_false_eq_true, if_false, hmk, hfs1]
        rw [hlhs]
        have hsrc1 : lookup src fs1 = some (.dir ch) := by
          rw [setPath_frame dest (.dir .nil) fs fs1 hfs1 src
            (sepRoots_touches_rev src dest hsep)]
          exact hsrc
        have hdest1 : lookup dest fs1 = some (.dir Entries.nil) :=
          setPath_lookup_self dest (.dir .nil) fs fs1 hfs1
        have hch : ch.height ≤ f := by
          simp only [Entry.height] at hh
          omega
        have hres := copyChildrenAux_spec f ihf ch ch Entries.nil src dest fs1
          (fun _ _ hx => hx) (by simpa [Entry.wf] using hwf) hch hsrc1 hsep
          hdest1 (fun _ _ => rfl)
        rw [hres]
        have habs := setPath_setPath dest (.dir .nil)
          (.dir (Entries.appendAll .nil ch)) fs fs1 hfs1
        rw [habs]
        rfl

/-! ## Correctness of the reset phase -/

/-- The children of `.vercel/output` right after the reset phase: the two
freshly created empty directories, `static` first. -/
def resetCh : Entries :=
  .cons "static" (.dir .nil) (.cons "config" (.dir .nil) .nil)

theorem touches_single (a : String) (q : List String)
    (h : touches [a] q = false) : ∃ b q2, q = b :: q2 ∧ ¬ a = b := by
  cases q with
  | nil => simp [touches, isUnder] at h
  | cons b q2 =>
    refine ⟨b, q2, rfl, ?_⟩
    intro hab
    subst hab
    simp [touches, isUnder] at h

theorem resetOutput_spec (fs : Entry) (rch : Entries)
    (hfs : fs = .dir rch) (hv : vercelOk fs = true) (hwf : fs.wf = true) :
    ∃ fs1, resetOutput fs = some fs1 ∧
      (∃ rch1, fs1 = .dir rch1) ∧
      fs1.wf = true ∧
      lookup outputDir fs1 = some (.dir resetCh) ∧
      (∀ q, touches [".vercel"] q = false → lookup q fs1 = lookup q fs) := by
  subst hfs
  replace hwf : rch.wf = true := by simpa [Entry.wf] using hwf
  cases hfv : rch.find? ".vercel" with
  | none =>
    have hex : existsSync outputDir (.dir rch) = false := by
      simp [existsSync, outputDir, lookup, hfv]
    have hmk1 : mkdirp staticDir (.dir rch)
        = some (.dir (rch.push ".vercel"
            (.dir (.cons "output" (.dir (.cons "static" (.dir .nil) .nil)) .nil)))) := by
      show mkdirp [".vercel", "output", "static"] (.dir rch) = _
      simp only [mkdirp, hfv]
      rfl
    have hfp : (rch.push ".vercel"
        (.dir (.cons "output" (.dir (.cons "static" (.dir .nil) .nil)) .nil))).find?
          ".vercel" = some (.dir (.cons "output"
            (.dir (.cons "static" (.dir .nil) .nil)) .nil)) := by
      rw [Entries.find?_push, hfv]
      simp
    have hmk2 : mkdirp (outputDir ++ ["config"]) (.dir (rch.push ".vercel"
          (.dir (.cons "output" (.dir (.cons "static" (.dir .nil) .nil)) .nil))))
        = some (.dir ((rch.push ".vercel"
            (.dir (.cons "output" (.dir (.cons "static" (.dir .nil) .nil)) .nil))).set
              ".vercel" (.dir (.cons "output" (.dir resetCh) .nil)))) := by
      show mkdirp [".vercel", "output", "config"] _ = _
      simp only [mkdirp, hfp]
      rfl
    refine ⟨.dir ((rch.push ".vercel"
        (.dir (.cons "output" (.dir (.cons "static" (.dir .nil) .nil)) .nil))).set
          ".vercel" (.dir (.cons "output" (.dir resetCh) .nil))), ?_, ⟨_, rfl⟩, ?_, ?_, ?_⟩
    · show resetOutput (.dir rch) = _
      rw [resetOutput, hex]
      simp only [if_false, Bool.false_eq_true]
      rw [hmk1]
      exact hmk2
    · have hpw : (rch.push ".vercel"
          (.dir (.cons "output" (.dir (.cons "static" (.dir .nil) .nil)) .nil))).wf
            = true := by
        apply Entries.wf_push rch _ _ hwf (by rfl)
        rw [Entries.hasName_eq_isSome_find?, hfv]
        rfl
      exact Entries.wf_set _ ".vercel" _ hpw (by rfl)
    · have hfind : ((rch.push ".vercel"
          (.dir (.cons "output" (.dir (.cons "static" (.dir .nil) .nil)) .nil))).set
            ".vercel" (.dir (.cons "output" (.dir resetCh) .nil))).find? ".vercel"
          = some (.dir (.cons "output" (.dir resetCh) .nil)) := by
        apply Entries.find?_set_self
        rw [Entries.hasName_eq_isSome_find?, Entries.find?_push, hfv]
        simp
      show lookup [".vercel", "output"] _ = _
      simp [lookup, hfind, Entries.find?]
    · intro q hq
      obtain ⟨b, q2, rfl, hb⟩ := touches_single ".vercel" q hq
      have hfr : ((rch.push ".vercel"
          (.dir (.cons "output" (.dir (.cons "static" (.dir .nil) .nil)) .nil))).set
            ".vercel" (.dir (.cons "output" (.dir resetCh) .nil))).find? b
          = rch.find? b := by
        rw [Entries.find?_set_ne _ _ _ _ (fun hc => hb hc.symm), Entries.find?_push]
        cases rch.find? b <;> simp [hb]
      simp [lookup, hfr]
  | some vc =>
    cases vc with
    | file c =>
      exfalso
      have hvf : vercelOk (.dir rch) = false := by
        simp [vercelOk, lookup, hfv]
      rw [hvf] at hv
      cases hv
    | dir vch =>
      have hvwf : vch.wf = true := by
        have := Entries.wf_of_find? rch ".vercel" (.dir vch) hwf hfv
        simpa [Entry.wf] using this
      have hvh : rch.hasName ".vercel" = true := by
        rw [Entries.hasName_eq_isSome_find?, hfv]
        rfl
      have hrm : (if existsSync outputDir (.dir rch) then removePath outputDir (.dir rch)
            else (.dir rch))
          = .dir (rch.set ".vercel" (.dir (vch.remove "output"))) := by
        cases hout : vch.find? "output" with
        | some e =>
          have hex : existsSync outputDir (.dir rch) = true := by
            simp [existsSync, outputDir, lookup, hfv, hout]
          rw [hex]
          show removePath [".vercel", "output"] (.dir rch) = _
          simp only [removePath, hfv]
        | none =>
          have hex : existsSync outputDir (.dir rch) = false := by
            simp [existsSync, outputDir, lookup, hfv, hout]
          rw [hex]
          simp only [if_false, Bool.false_eq_true]
          rw [Entries.remove_of_hasName_eq_false vch "output"
            (by rw [Entries.hasName_eq_isSome_find?, hout]; rfl)]
          rw [Entries.set_eq_of_find? rch ".vercel" (.dir vch) hfv]
      have hfv2 : (rch.set ".vercel" (.dir (vch.remove "output"))).find? ".vercel"
          = some (.dir (vch.remove "output")) :=
        Entries.find?_set_self rch ".vercel" _ hvh
      have hvno : (vch.remove "output").find? "output" = none :=
        Entries.find?_remove_self vch "output" hvwf
      have hono : (vch.remove "output").hasName "output" = false := by
        rw [Entries.hasName_eq_isSome_find?, hvno]
        rfl
      have hmk1 : mkdirp staticDir (.dir (rch.set ".vercel" (.dir (vch.remove "output"))))
          = some (.dir (rch.set ".vercel" (.dir ((vch.remove "output").push "output"
              (.dir (.cons "static" (.dir .nil) .nil)))))) := by
        have hraw : mkdirp staticDir (.dir (rch.set ".vercel" (.dir (vch.remove "output"))))
            = some (.dir ((rch.set ".vercel" (.dir (vch.remove "output"))).set ".vercel"
                (.dir ((vch.remove "output").push "output"
                  (.dir (.cons "static" (.dir .nil) .nil)))))) := by
          show mkdirp [".vercel", "output", "static"] _ = _
          simp only [mkdirp, hfv2, hvno]
          rfl
        rw [hraw, Entries.set_set]
      have hfv3 : (rch.set ".vercel" (.dir ((vch.remove "output").push "output"
            (.dir (.cons "static" (.dir .nil) .nil))))).find? ".vercel"
          = some (.dir ((vch.remove "output").push "output"
              (.dir (.cons "static" (.dir .nil) .nil)))) :=
        Entries.find?_set_self rch ".vercel" _ hvh
      have hfo : ((vch.remove "output").push "output"
            (.dir (.cons "static" (.dir .nil) .nil))).find? "output"
          = some (.dir (.cons "static" (.dir .nil) .nil)) := by
        rw [Entries.find?_push, hvno]
        simp
      have hmk2 : mkdirp (outputDir ++ ["config"])
            (.dir (rch.set ".vercel" (.dir ((vch.remove "output").push "output"
              (.dir (.cons "static" (.dir .nil) .nil))))))
          = some (.dir (rch.set ".vercel" (.dir ((vch.remove "output").push "output"
              (.dir resetCh))))) := by
        have hraw : mkdirp (outputDir ++ ["config"])
              (.dir (rch.set ".vercel" (.dir ((vch.remove "output").push "output"
                (.dir (.cons "static" (.dir .nil) .nil))))))
            = some (.dir ((rch.set ".vercel" (.dir ((vch.remove "output").push "output"
                (.dir (.cons "static" (.dir .nil) .nil))))).set ".vercel"
                  (.dir (((vch.remove "output").push "output"
                    (.dir (.cons "static" (.dir .nil) .nil))).set "output"
                      (.dir resetCh))))) := by
          show mkdirp [".vercel", "output", "config"] _ = _
          simp only [mkdirp, hfv3, hfo]
          rfl
        rw [hraw, Entries.set_push_self _ _ _ _ hono, Entries.set_set]
      refine ⟨.dir (rch.set ".vercel" (.dir ((vch.remove "output").push "output"
          (.dir resetCh)))), ?_, ⟨_, rfl⟩, ?_, ?_, ?_⟩
      · show resetOutput (.dir rch) = _
        rw [resetOutput]
        rw [hrm, hmk1]
        exact hmk2
      · have hrmwf : (vch.remove "output").wf = true :=
          Entries.wf_remove vch "output" hvwf
        have hpw : ((vch.remove "output").push "output" (.dir resetCh)).wf = true :=
          Entries.wf_push _ _ _ hrmwf (by rfl) hono
        exact Entries.wf_set rch ".vercel" _ hwf (by simpa [Entry.wf] using hpw)
      · have hfind : (rch.set ".vercel" (.dir ((vch.remove "output").push "output"
              (.dir resetCh)))).find? ".vercel"
            = some (.dir ((vch.remove "output").push "output" (.dir resetCh))) :=
          Entries.find?_set_self rch ".vercel" _ hvh
        have hfo2 : ((vch.remove "output").push "output" (.dir resetCh)).find? "output"
            = some (.dir resetCh) := by
          rw [Entries.find?_push, hvno]
          simp
        show lookup [".vercel", "output"] _ = _
        simp [lookup, hfind, hfo2]
      · intro q hq
        obtain ⟨b, q2, rfl, hb⟩ := touches_single ".vercel" q hq
        have hfr : (rch.set ".vercel" (.dir ((vch.remove "output").push "output"
              (.dir resetCh)))).find? b = rch.find? b :=
          Entries.find?_set_ne rch ".vercel" b _ (fun hc => hb hc.symm)
        simp [lookup, hfr]


/-! ## Phase descriptions -/

theorem writeFileAt_isdir_none (p : List String) (c : String) (fs : Entry)
    (ch2 : Entries) (h : lookup p fs = some (.dir ch2)) :
    writeFileAt p c fs = none := by
  induction p generalizing fs with
  | nil => rfl
  | cons n p ih =>
    cases fs with
    | file c0 => rfl
    | dir ch =>
      simp only [lookup] at h
      cases p with
      | nil =>
        cases hf : ch.find? n with
        | none => rw [hf] at h; simp at h
        | some sub =>
          rw [hf] at h
          simp only [lookup, Option.some.injEq] at h
          subst h
          simp [writeFileAt, hf]
      | cons m p2 =>
        cases hf : ch.find? n with
        | none => simp [writeFileAt, hf]
        | some sub =>
          rw [hf] at h
          simp [writeFileAt, hf, ih sub h]

theorem mirrorDist_missing (fs1 : Entry) (h : lookup ["dist"] fs1 = none) :
    mirrorDist fs1 = some fs1 := by
  show copyRecursive (fs1.height + 1) ["dist"] staticDir fs1 = some fs1
  simp [copyRecursive, h]

theorem mirrorDist_spec (fs1 : Entry) (d : Entries)
    (hdist : lookup ["dist"] fs1 = some (.dir d)) (hwfd : d.wf = true)
    (hst : lookup staticDir fs1 = some (.dir .nil)) :
    mirrorDist fs1 = setPath staticDir (.dir d) fs1 := by
  show copyRecursive (fs1.height + 1) ["dist"] staticDir fs1 = _
  have hex : existsSync staticDir fs1 = true := by
    simp [existsSync, hst]
  have hlhs : copyRecursive (fs1.height + 1) ["dist"] staticDir fs1
      = copyChildrenAux (fun s d2 g => copyRecursive fs1.height s d2 g)
          d.names ["dist"] staticDir fs1 := by
    simp only [copyRecursive, hdist, hex, if_true]
  rw [hlhs]
  have hsep : sepRoots ["dist"] staticDir = true := by decide
  have hhd : d.height ≤ fs1.height := by
    have := height_lt_of_lookup ["dist"] fs1 (.dir d) hdist (by simp)
    simp only [Entry.height] at this
    omega
  have hres := copyChildrenAux_spec fs1.height (copyRecursive_spec fs1.height)
    d d Entries.nil ["dist"] staticDir fs1 (fun _ _ hx => hx) hwfd hhd hdist hsep
    hst (fun _ _ => rfl)
  rw [hres]
  rfl

theorem promoteBundle_spec (fs2 : Entry) (d : Entries)
    (h1 : lookup jsDirPath fs2 = lookup jsRel (.dir d))
    (h2 : lookup staticDir fs2 = some (.dir d)) :
    promoteBundle fs2 = match promoteJs d with
      | none => none
      | some s1 => setPath staticDir (.dir s1) fs2 := by
  rw [promoteBundle, promoteJs, h1]
  cases hjs : lookup jsRel (.dir d) with
  | none =>
    simp only [hjs]
    simp [setPath_self staticDir (.dir d) fs2 h2]
  | some e =>
    cases e with
    | file c => simp only [hjs]
    | dir files =>
      simp only [hjs]
      cases hfind : files.names.find? isBundleName with
      | none =>
        simp only [hfind]
        simp [setPath_self staticDir (.dir d) fs2 h2]
      | some n =>
        simp only [hfind]
        have hmem : files.hasName n = true := by
          apply Entries.hasName_of_mem_names
          have := List.mem_of_find?_eq_some hfind
          simpa [Entries.names] using this
        have hread : lookup (jsDirPath ++ [n]) fs2
            = match files.find? n with
              | some e => some e
              | none => none := by
          rw [lookup_append, h1, hjs]
          simp [lookup]
        cases hfn : files.find? n with
        | none =>
          rw [Entries.hasName_eq_isSome_find?, hfn] at hmem
          cases hmem
        | some fe =>
          have hbt : lookup (staticDir ++ ["bundle.js"]) fs2
              = match d.find? "bundle.js" with
                | some e => some e
                | none => none := by
            rw [lookup_append, h2]
            simp [lookup]
          cases fe with
          | dir ch2 =>
            have hr2 : lookup (jsDirPath ++ [n]) fs2 = some (.dir ch2) := by
              rw [hread, hfn]
            simp only [copyFile, readFileAt, hr2, hfn]
          | file c =>
            have hr2 : lookup (jsDirPath ++ [n]) fs2 = some (.file c) := by
              rw [hread, hfn]
            simp only [copyFile, readFileAt, hr2, hfn]
            cases hb : d.find? "bundle.js" with
            | none =>
              simp only [hb]
              rw [writeFileAt_eq_setPath (staticDir ++ ["bundle.js"]) c fs2
                (by simp [staticDir]) (Or.inl (by rw [hbt, hb]))]
              rw [setPath_graft staticDir "bundle.js" (.file c) fs2 d h2]
            | some be =>
              cases be with
              | dir ch2 =>
                simp only [hb]
                exact writeFileAt_isdir_none (staticDir ++ ["bundle.js"]) c fs2 ch2
                  (by rw [hbt, hb])
              | file c0 =>
                simp only [hb]
                rw [writeFileAt_eq_setPath (staticDir ++ ["bundle.js"]) c fs2
                  (by simp [staticDir]) (Or.inr ⟨c0, by rw [hbt, hb]⟩)]
                rw [setPath_graft staticDir "bundle.js" (.file c) fs2 d h2]

theorem rewriteIndex_spec (fs3 : Entry) (s1 : Entries)
    (h2 : lookup staticDir fs3 = some (.dir s1)) :
    rewriteIndex fs3 = match rewriteHtml s1 with
      | none => none
      | some s2 => setPath staticDir (.dir s2) fs3 := by
  have hip : lookup (staticDir ++ ["index.html"]) fs3
      = match s1.find? "index.html" with
        | some e => some e
        | none => none := by
    rw [lookup_append, h2]
    simp [lookup]
  rw [rewriteIndex, rewriteHtml]
  cases hfi : s1.find? "index.html" with
  | none =>
    simp only [hip, hfi]
    rw [setPath_self staticDir (.dir s1) fs3 h2]
  | some fe =>
    cases fe with
    | dir ch2 => simp only [hip, hfi]
    | file h =>
      simp only [hip, hfi]
      rw [writeFileAt_eq_setPath (staticDir ++ ["index.html"]) (replaceAppEntry h) fs3
        (by simp [staticDir]) (Or.inr ⟨h, by rw [hip, hfi]⟩)]
      rw [setPath_graft staticDir "index.html" (.file (replaceAppEntry h)) fs3 s1 h2]

theorem writeConfig_spec (fs4 : Entry) (out : Entries)
    (h : lookup outputDir fs4 = some (.dir out))
    (hno : out.find? "config.json" = none ∨
      ∃ c0, out.find? "config.json" = some (.file c0)) :
    writeConfig fs4
      = setPath outputDir (.dir (out.insert "config.json" (.file configText))) fs4 := by
  have hcp : lookup (outputDir ++ ["config.json"]) fs4
      = match out.find? "config.json" with
        | some e => some e
        | none => none := by
    rw [lookup_append, h]
    simp [lookup]
  rw [writeConfig]
  rw [writeFileAt_eq_setPath (outputDir ++ ["config.json"]) configText fs4
    (by simp [outputDir]) ?_]
  · rw [setPath_graft outputDir "config.json" (.file configText) fs4 out h]
  · rcases hno with hno | ⟨c0, hno⟩
    · exact Or.inl (by rw [hcp, hno])
    · exact Or.inr ⟨c0, by rw [hcp, hno]⟩

theorem promoteJs_wf (d s1 : Entries) (hwf : d.wf = true)
    (h : promoteJs d = some s1) : s1.wf = true := by
  rw [promoteJs] at h
  split at h
  · cases h; exact hwf
  · cases h
  · rename_i files _
    split at h
    · cases h; exact hwf
    · split at h
      · rename_i c hfc
        split at h
        · cases h
        · cases h
          exact Entries.wf_insert d "bundle.js" (.file c) hwf rfl
      · cases h

theorem rewriteHtml_wf (s1 s : Entries) (hwf : s1.wf = true)
    (h : rewriteHtml s1 = some s) : s.wf = true := by
  rw [rewriteHtml] at h
  split at h
  · cases h; exact hwf
  · cases h
  · cases h
    exact Entries.wf_insert s1 "index.html" _ hwf rfl

/-! ## The master description of a successful run

A successful run rewrites the output root into `outTree s`, where `s` is
the pure `processStatic` image of the children of `dist`, and leaves every
path not comparable with `.vercel` untouched. -/

theorem build_spec_dir (fs : Entry) (rch d s : Entries)
    (hfs : fs = .dir rch) (hv : vercelOk fs = true) (hwf : fs.wf = true)
    (hdist : lookup ["dist"] fs = some (.dir d))
    (hps : processStatic d = some s) :
    ∃ fs2, build fs = some fs2 ∧
      lookup outputDir fs2 = some (.dir (outTree s)) ∧
      (∀ q, touches [".vercel"] q = false → lookup q fs2 = lookup q fs) ∧
      (∃ rch2, fs2 = .dir rch2) ∧ vercelOk fs2 = true ∧ fs2.wf = true := by
  obtain ⟨fs1, hr1, ⟨rch1, hroot1⟩, hwf1, hout1, hframe1⟩ :=
    resetOutput_spec fs rch hfs hv hwf
  have hdist1 : lookup ["dist"] fs1 = some (.dir d) := by
    rw [hframe1 ["dist"] (by decide)]
    exact hdist
  have hst1 : lookup staticDir fs1 = some (.dir .nil) := by
    show lookup (outputDir ++ ["static"]) fs1 = _
    rw [lookup_append, hout1]
    simp [lookup, resetCh, Entries.find?]
  have hwfd : d.wf = true := by
    have := wf_of_lookup ["dist"] fs (.dir d) hwf hdist
    simpa [Entry.wf] using this
  have hmir : mirrorDist fs1 = setPath staticDir (.dir d) fs1 :=
    mirrorDist_spec fs1 d hdist1 hwfd hst1
  have hsome2 : (setPath staticDir (.dir d) fs1).isSome = true :=
    setPath_isSome_of_lookup staticDir (.dir d) fs1 (.dir .nil) hst1
  cases hfs2 : setPath staticDir (.dir d) fs1 with
  | none => rw [hfs2] at hsome2; cases hsome2
  | some fs2 =>
  have hstat2 : lookup staticDir fs2 = some (.dir d) :=
    setPath_lookup_self staticDir (.dir d) fs1 fs2 hfs2
  have hjsd2 : lookup jsDirPath fs2 = lookup jsRel (.dir d) := by
    rw [setPath_frame staticDir (.dir d) fs1 fs2 hfs2 jsDirPath (by decide)]
    rw [hframe1 jsDirPath (by decide)]
    show lookup (["dist"] ++ jsRel) fs = _
    rw [lookup_append, hdist]
    rfl
  cases hpj : promoteJs d with
  | none => rw [processStatic, hpj] at hps; cases hps
  | some s1 =>
  have hrh : rewriteHtml s1 = some s := by
    rw [processStatic, hpj] at hps
    exact hps
  have hwfs1 : s1.wf = true := promoteJs_wf d s1 hwfd hpj
  have hwfs : s.wf = true := rewriteHtml_wf s1 s hwfs1 hrh
  have hpro : promoteBundle fs2 = setPath staticDir (.dir s1) fs1 := by
    rw [promoteBundle_spec fs2 d hjsd2 hstat2, hpj]
    exact setPath_setPath staticDir (.dir d) (.dir s1) fs1 fs2 hfs2
  have hsome3 : (setPath staticDir (.dir s1) fs1).isSome = true :=
    setPath_isSome_of_lookup staticDir (.dir s1) fs1 (.dir .nil) hst1
  cases hfs3 : setPath staticDir (.dir s1) fs1 with
  | none => rw [hfs3] at hsome3; cases hsome3
  | some fs3 =>
  have hstat3 : lookup staticDir fs3 = some (.dir s1) :=
    setPath_lookup_self staticDir (.dir s1) fs1 fs3 hfs3
  have hrw : rewriteIndex fs3 = setPath staticDir (.dir s) fs1 := by
    rw [rewriteIndex_spec fs3 s1 hstat3, hrh]
    exact setPath_setPath staticDir (.dir s1) (.dir s) fs1 fs3 hfs3
  have hsome4 : (setPath staticDir (.dir s) fs1).isSome = true :=
    setPath_isSome_of_lookup staticDir (.dir s) fs1 (.dir .nil) hst1
  cases hfs4 : setPath staticDir (.dir s) fs1 with
  | none => rw [hfs4] at hsome4; cases hsome4
  | some fs4 =>
  have hins : resetCh.insert "static" (.dir s)
      = .cons "static" (.dir s) (.cons "config" (.dir .nil) .nil) := by
    simp [resetCh, Entries.insert, Entries.hasName, Entries.set]
  have hfs4g : setPath outputDir
      (.dir (.cons "static" (.dir s) (.cons "config" (.dir .nil) .nil))) fs1
      = some fs4 := by
    rw [← hins, ← setPath_graft outputDir "static" (.dir s) fs1 resetCh hout1]
    exact hfs4
  have hout4 : lookup outputDir fs4
      = some (.dir (.cons "static" (.dir s) (.cons "config" (.dir .nil) .nil))) :=
    setPath_lookup_self outputDir _ fs1 fs4 hfs4g
  have hnocfg : (Entries.cons "static" (Entry.dir s)
      (.cons "config" (.dir .nil) .nil)).find? "config.json" = none := by
    simp [Entries.find?]
  have hinscfg : (Entries.cons "static" (Entry.dir s)
        (.cons "config" (.dir .nil) .nil)).insert "config.json" (.file configText)
      = outTree s := by
    simp [Entries.insert, Entries.hasName, Entries.push, outTree]
  have hwc : writeConfig fs4 = setPath outputDir (.dir (outTree s)) fs1 := by
    rw [writeConfig_spec fs4 _ hout4 (Or.inl hnocfg), hinscfg]
    exact setPath_setPath outputDir _ (.dir (outTree s)) fs1 fs4 hfs4g
  have hsome5 : (setPath outputDir (.dir (outTree s)) fs1).isSome = true :=
    setPath_isSome_of_lookup outputDir (.dir (outTree s)) fs1 (.dir resetCh) hout1
  cases hfs5 : setPath outputDir (.dir (outTree s)) fs1 with
  | none => rw [hfs5] at hsome5; cases hsome5
  | some fs5 =>
  have hbuild : build fs = some fs5 := by
    simp only [build, hr1, hmir, hfs2, hpro, hfs3, hrw, hfs4, hwc, hfs5]
  have hout5 : lookup outputDir fs5 = some (.dir (outTree s)) :=
    setPath_lookup_self outputDir (.dir (outTree s)) fs1 fs5 hfs5
  have hframe5 : ∀ q, touches [".vercel"] q = false → lookup q fs5 = lookup q fs := by
    intro q hq
    have hq2 : touches outputDir q = false := touches_extend [".vercel"] q ["output"] hq
    rw [setPath_frame outputDir (.dir (outTree s)) fs1 fs5 hfs5 q hq2]
    exact hframe1 q hq
  have hroot5 : ∃ rch2, fs5 = .dir rch2 :=
    setPath_rootDir outputDir (.dir (outTree s)) fs1 fs5 rch1 hroot1 (by simp [outputDir])
      hfs5
  have hv5 : vercelOk fs5 = true := by
    obtain ⟨ch5, hch5⟩ := lookup_dirAlong [".vercel"] ["output"] fs5 (.dir (outTree s))
      hout5 (by simp)
    simp [vercelOk, hch5]
  have hwftree : (Entry.dir (outTree s)).wf = true := by
    simp [Entry.wf, outTree, Entries.wf, Entries.hasName, hwfs]
  have hwf5 : fs5.wf = true :=
    setPath_wf outputDir (.dir (outTree s)) fs1 fs5 hwf1 hwftree hfs5
  exact ⟨fs5, hbuild, hout5, hframe5, hroot5, hv5, hwf5⟩

theorem build_spec_missing (fs : Entry) (rch : Entries)
    (hfs : fs = .dir rch) (hv : vercelOk fs = true) (hwf : fs.wf = true)
    (hdist : lookup ["dist"] fs = none) :
    ∃ fs2, build fs = some fs2 ∧
      lookup outputDir fs2 = some (.dir (outTree .nil)) ∧
      (∀ q, touches [".vercel"] q = false → lookup q fs2 = lookup q fs) ∧
      (∃ rch2, fs2 = .dir rch2) ∧ vercelOk fs2 = true ∧ fs2.wf = true := by
  obtain ⟨fs1, hr1, ⟨rch1, hroot1⟩, hwf1, hout1, hframe1⟩ :=
    resetOutput_spec fs rch hfs hv hwf
  have hdist1 : lookup ["dist"] fs1 = none := by
    rw [hframe1 ["dist"] (by decide)]
    exact hdist
  have hst1 : lookup staticDir fs1 = some (.dir .nil) := by
    show lookup (outputDir ++ ["static"]) fs1 = _
    rw [lookup_append, hout1]
    simp [lookup, resetCh, Entries.find?]
  have hmir : mirrorDist fs1 = some fs1 := mirrorDist_missing fs1 hdist1
  have hjs1 : lookup jsDirPath fs1 = none := by
    show lookup (["dist"] ++ jsRel) fs1 = none
    rw [lookup_append, hdist1]
    rfl
  have hpro : promoteBundle fs1 = some fs1 := by
    rw [promoteBundle, hjs1]
  have hidx1 : lookup (staticDir ++ ["index.html"]) fs1 = none := by
    rw [lookup_append, hst1]
    rfl
  have hrw : rewriteIndex fs1 = some fs1 := by
    rw [rewriteIndex, hidx1]
  have hnocfg : resetCh.find? "config.json" = none := by
    simp [resetCh, Entries.find?]
  have hinscfg : resetCh.insert "config.json" (.file configText) = outTree .nil := by
    simp [resetCh, Entries.insert, Entries.hasName, Entries.push, outTree]
  have hwc : writeConfig fs1 = setPath outputDir (.dir (outTree .nil)) fs1 := by
    rw [writeConfig_spec fs1 resetCh hout1 (Or.inl hnocfg), hinscfg]
  have hsome5 : (setPath outputDir (.dir (outTree .nil)) fs1).isSome = true :=
    setPath_isSome_of_lookup outputDir (.dir (outTree .nil)) fs1 (.dir resetCh) hout1
  cases hfs5 : setPath outputDir (.dir (outTree .nil)) fs1 with
  | none => rw [hfs5] at hsome5; cases hsome5
  | some fs5 =>
  have hbuild : build fs = some fs5 := by
    simp only [build, hr1, hmir, hpro, hrw, hwc, hfs5]
  have hout5 : lookup outputDir fs5 = some (.dir (outTree .nil)) :=
    setPath_lookup_self outputDir (.dir (outTree .nil)) fs1 fs5 hfs5
  have hframe5 : ∀ q, touches [".vercel"] q = false → lookup q fs5 = lookup q fs := by
    intro q hq
    have hq2 : touches outputDir q = false := touches_extend [".vercel"] q ["output"] hq
    rw [setPath_frame outputDir (.dir (outTree .nil)) fs1 fs5 hfs5 q hq2]
    exact hframe1 q hq
  have hroot5 : ∃ rch2, fs5 = .dir rch2 :=
    setPath_rootDir outputDir (.dir (outTree .nil)) fs1 fs5 rch1 hroot1
      (by simp [outputDir]) hfs5
  have hv5 : vercelOk fs5 = true := by
    obtain ⟨ch5, hch5⟩ := lookup_dirAlong [".vercel"] ["output"] fs5
      (.dir (outTree .nil)) hout5 (by simp)
    simp [vercelOk, hch5]
  have hwftree : (Entry.dir (outTree .nil)).wf = true := by
    simp [Entry.wf, outTree, Entries.wf, Entries.hasName]
  have hwf5 : fs5.wf = true :=
    setPath_wf outputDir (.dir (outTree .nil)) fs1 fs5 hwf1 hwftree hfs5
  exact ⟨fs5, hbuild, hout5, hframe5, hroot5, hv5, hwf5⟩

/-! ## What the final static listing holds -/

theorem lookup_static_of_out (fs2 : Entry) (s : Entries)
    (h : lookup outputDir fs2 = some (.dir (outTree s))) (P : List String) :
    lookup (staticDir ++ P) fs2 = lookup P (.dir s) := by
  have hst : lookup staticDir fs2 = some (.dir s) := by
    show lookup (outputDir ++ ["static"]) fs2 = _
    rw [lookup_append, h]
    simp [lookup, outTree, Entries.find?]
  rw [lookup_append, hst]
  rfl

theorem promoteJs_find?_other (d s1 : Entries) (n : String)
    (h : promoteJs d = some s1) (hn : n ≠ "bundle.js") :
    s1.find? n = d.find? n := by
  rw [promoteJs] at h
  split at h
  · cases h; rfl
  · cases h
  · split at h
    · cases h; rfl
    · split at h
      · split at h
        · cases h
        · cases h
          exact Entries.find?_insert_ne d "bundle.js" n _ hn
      · cases h

theorem promoteJs_find?_bundle_dir (d s1 : Entries) (ch : Entries)
    (h : promoteJs d = some s1) (hf : d.find? "bundle.js" = some (.dir ch)) :
    s1.find? "bundle.js" = some (.dir ch) := by
  rw [promoteJs] at h
  split at h
  · cases h; exact hf
  · cases h
  · split at h
    · cases h; exact hf
    · split at h
      · rw [hf] at h
        cases h
      · cases h

theorem rewriteHtml_find?_other (s1 s : Entries) (n : String)
    (h : rewriteHtml s1 = some s) (hn : n ≠ "index.html") :
    s.find? n = s1.find? n := by
  rw [rewriteHtml] at h
  split at h
  · cases h; rfl
  · cases h
  · cases h
    exact Entries.find?_insert_ne s1 "index.html" n _ hn

theorem rewriteHtml_dir_none (s1 : Entries) (ch : Entries)
    (hf : s1.find? "index.html" = some (.dir ch)) :
    rewriteHtml s1 = none := by
  rw [rewriteHtml, hf]

theorem processStatic_lookup_file (d s : Entries) (hps : processStatic d = some s)
    (P : List String) (c : String)
    (hP : lookup P (.dir d) = some (.file c))
    (h1 : P ≠ ["index.html"]) (h2 : P ≠ ["bundle.js"]) :
    lookup P (.dir s) = some (.file c) := by
  cases hpj : promoteJs d with
  | none => rw [processStatic, hpj] at hps; cases hps
  | some s1 =>
  have hrh : rewriteHtml s1 = some s := by
    rw [processStatic, hpj] at hps
    exact hps
  cases P with
  | nil => simp [lookup] at hP
  | cons n rest =>
    simp only [lookup] at hP ⊢
    cases hf : d.find? n with
    | none => rw [hf] at hP; cases hP
    | some sub =>
    rw [hf] at hP
    by_cases hb : n = "bundle.js"
    · subst hb
      cases rest with
      | nil => exact absurd rfl h2
      | cons r rest2 =>
        cases sub with
        | file c0 => simp [lookup] at hP
        | dir ch =>
          have hs1 : s1.find? "bundle.js" = some (.dir ch) :=
            promoteJs_find?_bundle_dir d s1 ch hpj hf
          have hs : s.find? "bundle.js" = some (.dir ch) := by
            rw [rewriteHtml_find?_other s1 s "bundle.js" hrh (by decide), hs1]
          rw [hs]
          exact hP
    · by_cases hi : n = "index.html"
      · subst hi
        cases rest with
        | nil => exact absurd rfl h1
        | cons r rest2 =>
          cases sub with
          | file c0 => simp [lookup] at hP
          | dir ch =>
            exfalso
            have hs1 : s1.find? "index.html" = some (.dir ch) := by
              rw [promoteJs_find?_other d s1 "index.html" hpj (by decide), hf]
            rw [rewriteHtml_dir_none s1 ch hs1] at hrh
            cases hrh
      · have hsn : s.find? n = some sub := by
          rw [rewriteHtml_find?_other s1 s n hrh hi,
            promoteJs_find?_other d s1 n hpj hb, hf]
        rw [hsn]
        exact hP

theorem processStatic_bundle (d s files : Entries) (n : String) (c : String)
    (hps : processStatic d = some s)
    (hjs : lookup jsRel (.dir d) = some (.dir files))
    (hfind : files.names.find? isBundleName = some n)
    (hfn : files.find? n = some (.file c)) :
    s.find? "bundle.js" = some (.file c) := by
  cases hpj : promoteJs d with
  | none => rw [processStatic, hpj] at hps; cases hps
  | some s1 =>
  have hrh : rewriteHtml s1 = some s := by
    rw [processStatic, hpj] at hps
    exact hps
  have hpj2 := hpj
  rw [promoteJs, hjs] at hpj2
  simp only [hfind, hfn] at hpj2
  have hs1 : s1.find? "bundle.js" = some (.file c) := by
    cases hbf : d.find? "bundle.js" with
    | none =>
      simp only [hbf, Option.some.injEq] at hpj2
      subst hpj2
      exact Entries.find?_insert_self d "bundle.js" (.file c)
    | some be =>
      cases be with
      | dir ch2 => simp only [hbf] at hpj2; cases hpj2
      | file c0 =>
        simp only [hbf, Option.some.injEq] at hpj2
        subst hpj2
        exact Entries.find?_insert_self d "bundle.js" (.file c)
  rw [rewriteHtml_find?_other s1 s "bundle.js" hrh (by decide), hs1]

theorem processStatic_index (d s : Entries) (h : String)
    (hps : processStatic d = some s)
    (hidx : d.find? "index.html" = some (.file h)) :
    s.find? "index.html" = some (.file (replaceAppEntry h)) := by
  cases hpj : promoteJs d with
  | none => rw [processStatic, hpj] at hps; cases hps
  | some s1 =>
  have hrh : rewriteHtml s1 = some s := by
    rw [processStatic, hpj] at hps
    exact hps
  have hs1 : s1.find? "index.html" = some (.file h) := by
    rw [promoteJs_find?_other d s1 "index.html" hpj (by decide), hidx]
  rw [rewriteHtml, hs1] at hrh
  simp only [Option.some.injEq] at hrh
  subst hrh
  exact Entries.find?_insert_self s1 "index.html" _

/-- The guard of the rewrite phase seen from `dist`: `index.html` is absent
or is a regular file (when it is a directory the rewrite phase crashes). -/
def htmlOk (d : Entries) : Bool :=
  match d.find? "index.html" with
  | some (.dir _) => false
  | _ => true

/-- The promotion phase is a no-op on the model when the nested JS
directory is missing (line 26 of the script). -/
theorem promoteJs_of_nojs (d : Entries) (hjs : lookup jsRel (.dir d) = none) :
    promoteJs d = some d := by
  rw [promoteJs, hjs]

/-- The promotion phase is a no-op on the model when the nested JS
directory exists but no listing name matches the bundle test (the
`if (jsFile)` guard on line 29 of the script). -/
theorem promoteJs_of_nomatch (d files : Entries)
    (hjs : lookup jsRel (.dir d) = some (.dir files))
    (hfind : files.names.find? isBundleName = none) :
    promoteJs d = some d := by
  rw [promoteJs, hjs]
  show (match files.names.find? isBundleName with
    | none => some d
    | some n =>
      match files.find? n with
      | some (.file c) =>
        match d.find? "bundle.js" with
        | some (.dir _) => none
        | _ => some (d.insert "bundle.js" (.file c))
      | _ => none) = some d
  rw [hfind]

theorem processStatic_skip (d : Entries) (hpj : promoteJs d = some d)
    (hidx : htmlOk d = true) :
    ∃ s, processStatic d = some s ∧ s.find? "bundle.js" = d.find? "bundle.js" := by
  rw [htmlOk] at hidx
  cases hf : d.find? "index.html" with
  | none =>
    refine ⟨d, ?_, rfl⟩
    rw [processStatic, hpj]
    show rewriteHtml d = some d
    rw [rewriteHtml, hf]
  | some fe =>
    cases fe with
    | dir ch => rw [hf] at hidx; cases hidx
    | file h =>
      refine ⟨d.insert "index.html" (.file (replaceAppEntry h)), ?_, ?_⟩
      · rw [processStatic, hpj]
        show rewriteHtml d = _
        rw [rewriteHtml, hf]
      · exact Entries.find?_insert_ne d "index.html" "bundle.js" _ (by decide)

/-! ## The manifest shape fixed by the specification -/

/-- Modelled from the spec, section 6: the exact routing manifest shape the
emitted `config.json` must parse back to — version 3 and the four routes in
the given order with the exact cache-control value. -/
def sectionSixConfig : Json :=
  .obj (.cons "version" (.num 3)
    (.cons "routes" (.arr
      (.cons (.obj (.cons "src" (.str "^/static/(.*)$")
                (.cons "headers" (.obj (.cons "Cache-Control"
                    (.str "public, max-age=31536000, immutable") .nil))
                  (.cons "continue" (.bool true) .nil))))
      (.cons (.obj (.cons "src" (.str "^/assets/(.*)$")
                (.cons "headers" (.obj (.cons "Cache-Control"
                    (.str "public, max-age=31536000, immutable") .nil))
                  (.cons "continue" (.bool true) .nil))))
      (.cons (.obj (.cons "handle" (.str "filesystem") .nil))
      (.cons (.obj (.cons "src" (.str "/(.*)")
                (.cons "dest" (.str "/index.html") .nil)))
      .nil)))))
    .nil))

/-! ## Concrete example trees used by witnesses and counterexamples -/

/-- A representative entry page whose script tag points at the hashed
bundle under the fixed nested path. -/
def exHtml : String :=
  "<script src=\"/_expo/static/js/web/AppEntry-abc123.js\"></script>"

/-- The entry page after the rewrite phase. -/
def exHtmlRew : String := "<script src=\"/bundle.js\"></script>"

/-- The `_expo` subtree holding exactly one hashed bundle file. -/
def exExpo : Entry :=
  .dir (.cons "static" (.dir (.cons "js" (.dir (.cons "web"
    (.dir (.cons "AppEntry-abc123.js" (.file "BUNDLE") .nil)) .nil)) .nil)) .nil)

/-- The children of a representative `dist` build tree. -/
def exDist : Entries :=
  .cons "index.html" (.file exHtml)
    (.cons "_expo" exExpo
      (.cons "assets" (.dir (.cons "logo.png" (.file "PNG") .nil)) .nil))

/-- A working directory holding the representative `dist`. -/
def exFs : Entry := .dir (.cons "dist" (.dir exDist) .nil)

/-- The final static listing produced from `exDist`: everything mirrored,
`bundle.js` appended, `index.html` rewritten. -/
def exStatic : Entries :=
  .cons "index.html" (.file exHtmlRew)
    (.cons "_expo" exExpo
      (.cons "assets" (.dir (.cons "logo.png" (.file "PNG") .nil))
        (.cons "bundle.js" (.file "BUNDLE") .nil)))

/-- A `dist` that already holds a root-level `bundle.js` next to the hashed
bundle at the nested path (for C10). -/
def exDist2 : Entries :=
  .cons "bundle.js" (.file "OLD")
    (.cons "_expo" (.dir (.cons "static" (.dir (.cons "js" (.dir (.cons "web"
      (.dir (.cons "AppEntry-1.js" (.file "NEW") .nil)) .nil)) .nil)) .nil)) .nil)

/-- A working directory holding `exDist2`. -/
def exFs2 : Entry := .dir (.cons "dist" (.dir exDist2) .nil)

/-- The final static listing produced from `exDist2`: the mirrored root
`bundle.js` is overwritten in place by the promoted bundle. -/
def exStatic2 : Entries :=
  .cons "bundle.js" (.file "NEW")
    (.cons "_expo" (.dir (.cons "static" (.dir (.cons "js" (.dir (.cons "web"
      (.dir (.cons "AppEntry-1.js" (.file "NEW") .nil)) .nil)) .nil)) .nil)) .nil)

/-- A working directory with no `dist` at all. -/
def c5aFs : Entry := .dir .nil

/-- The children of a `dist` with no nested JS directory. -/
def c5bDist : Entries := .cons "notes.txt" (.file "x") .nil

/-- A working directory holding `c5bDist`. -/
def c5bFs : Entry := .dir (.cons "dist" (.dir c5bDist) .nil)

/-- The children of a `dist` whose nested JS directory exists but holds no
name matching the bundle test. -/
def c5cDist : Entries :=
  .cons "_expo" (.dir (.cons "static" (.dir (.cons "js" (.dir (.cons "web"
    (.dir (.cons "other.js" (.file "y") .nil)) .nil)) .nil)) .nil)) .nil

/-- A working directory holding `c5cDist`. -/
def c5cFs : Entry := .dir (.cons "dist" (.dir c5cDist) .nil)

/-- A `dist` whose only content is a root-level `bundle.js` (and no nested
JS directory): the promotion is skipped but the mirror still produces a
`bundle.js` in the output. -/
def c5cexFs : Entry :=
  .dir (.cons "dist" (.dir (.cons "bundle.js" (.file "mirrored") .nil)) .nil)

/-- A working directory with a stale `.vercel/output` from a prior run. -/
def c6Fs : Entry :=
  .dir (.cons ".vercel" (.dir (.cons "output" (.dir (.cons "stale.txt"
    (.file "old") (.cons "static" (.file "not-a-dir") .nil))) .nil)) .nil)

/-- A `dist` whose `index.html` refers to the bundle: the mirrored copy of
`index.html` is rewritten, so the output copy differs from the source
(refuting C1 as stated). -/
def c1Fs : Entry :=
  .dir (.cons "dist" (.dir (.cons "index.html" (.file exHtml) .nil)) .nil)

set_option maxRecDepth 400000 in
/-- Reading the emitted manifest text back yields exactly the document of
spec section 6. -/
theorem c4_roundtrip_aux : parseJson configText = some sectionSixConfig := rfl

/-! ## Claims -/

/-- C6: the reset step fully regenerates the output: for any pre-existing
state of `.vercel/output` (with `.vercel` absent or a directory, the case
in which the script survives), it is removed recursively, and immediately
after the reset step the output root contains only the two empty
directories `static` and `config`, in that listing order, and nothing
else. -/
theorem c6_reset_regenerates (fs : Entry) (rch : Entries)
    (hfs : fs = .dir rch) (hv : vercelOk fs = true) (hwf : fs.wf = true) :
    ∃ fs1, resetOutput fs = some fs1 ∧
      lookup outputDir fs1
        = some (.dir (.cons "static" (.dir .nil) (.cons "config" (.dir .nil) .nil))) := by
  obtain ⟨fs1, hr, _, _, hout, _⟩ := resetOutput_spec fs rch hfs hv hwf
  exact ⟨fs1, hr, hout⟩

/-- Witness for C6: resetting a tree that still holds a stale
`.vercel/output` with junk files leaves exactly the two empty
directories. -/
theorem c6_reset_regenerates_witness :
    ∃ fs1, resetOutput c6Fs = some fs1 ∧
      lookup outputDir fs1
        = some (.dir (.cons "static" (.dir .nil) (.cons "config" (.dir .nil) .nil))) :=
  c6_reset_regenerates c6Fs
    (.cons ".vercel" (.dir (.cons "output" (.dir (.cons "stale.txt"
      (.file "old") (.cons "static" (.file "not-a-dir") .nil))) .nil)) .nil)
    rfl (by decide) (by decide)

/-- C4: after a successful run the file `config.json` sits at the output
root `.vercel/output` (a sibling of the static subdirectory), holds
exactly the pretty-printed rendering of the script's `config` object, and
parses back to a JSON document that deep-equals the fixed structure of
spec section 6 (version 3, the four routes in order, the exact
cache-control value). -/
theorem c4_manifest_exact (fs : Entry) (rch d s : Entries)
    (hfs : fs = .dir rch) (hv : vercelOk fs = true) (hwf : fs.wf = true)
    (hdist : lookup ["dist"] fs = some (.dir d))
    (hps : processStatic d = some s) :
    (∃ fs2, build fs = some fs2 ∧
      readFileAt (outputDir ++ ["config.json"]) fs2 = some configText) ∧
    parseJson configText = some sectionSixConfig := by
  constructor
  · obtain ⟨fs2, hb, hout, _, _, _, _⟩ := build_spec_dir fs rch d s hfs hv hwf hdist hps
    refine ⟨fs2, hb, ?_⟩
    have hcj : lookup (outputDir ++ ["config.json"]) fs2 = some (.file configText) := by
      rw [lookup_append, hout]
      simp [lookup, outTree, Entries.find?]
    rw [readFileAt, hcj]
  · exact c4_roundtrip_aux

/-- Witness for C4 on the representative build tree. -/
theorem c4_manifest_exact_witness :
    ((∃ fs2, build exFs = some fs2 ∧
      readFileAt (outputDir ++ ["config.json"]) fs2 = some configText) ∧
    parseJson configText = some sectionSixConfig) :=
  c4_manifest_exact exFs (.cons "dist" (.dir exDist) .nil) exDist exStatic
    rfl (by decide) (by decide) (by decide) (by decide)

/-- C2: if the directory `dist/_expo/static/js/web` exists, the packager
selects the first listing entry whose name starts with `AppEntry` and ends
with `.js`, and when that entry is a file, the output static root contains
`bundle.js` with byte-identical content. -/
theorem c2_bundle_promotion (fs : Entry) (rch d s files : Entries) (n c : String)
    (hfs : fs = .dir rch) (hv : vercelOk fs = true) (hwf : fs.wf = true)
    (hdist : lookup ["dist"] fs = some (.dir d))
    (hps : processStatic d = some s)
    (hjs : lookup jsRel (.dir d) = some (.dir files))
    (hfind : files.names.find? isBundleName = some n)
    (hfn : files.find? n = some (.file c)) :
    ∃ fs2, build fs = some fs2 ∧
      lookup (staticDir ++ ["bundle.js"]) fs2 = some (.file c) := by
  obtain ⟨fs2, hb, hout, _, _, _, _⟩ := build_spec_dir fs rch d s hfs hv hwf hdist hps
  refine ⟨fs2, hb, ?_⟩
  rw [lookup_static_of_out fs2 s hout ["bundle.js"]]
  have hsb := processStatic_bundle d s files n c hps hjs hfind hfn
  simp [lookup, hsb]

/-- Witness for C2: a source tree holding exactly one file
`AppEntry-abc123.js` at the fixed nested path yields a root `bundle.js`
with its bytes. -/
theorem c2_bundle_promotion_witness :
    ∃ fs2, build exFs = some fs2 ∧
      lookup (staticDir ++ ["bundle.js"]) fs2 = some (.file "BUNDLE") :=
  c2_bundle_promotion exFs (.cons "dist" (.dir exDist) .nil) exDist exStatic
    (.cons "AppEntry-abc123.js" (.file "BUNDLE") .nil) "AppEntry-abc123.js" "BUNDLE"
    rfl (by decide) (by decide) (by decide) (by decide) (by decide) (by decide)
    (by decide)

/-- C3: if `index.html` exists (as a mirrored file) at the static-assets
root, the packager replaces the first `src="...AppEntry....js"` attribute
with `src="/bundle.js"` and changes nothing else (the output is exactly
the single-replacement image of the input); in particular the example page
`<script src="/_expo/static/js/web/AppEntry-abc123.js"></script>` comes
out as `<script src="/bundle.js"></script>`. -/
theorem c3_html_rewrite (fs : Entry) (rch d s : Entries) (html : String)
    (hfs : fs = .dir rch) (hv : vercelOk fs = true) (hwf : fs.wf = true)
    (hdist : lookup ["dist"] fs = some (.dir d))
    (hps : processStatic d = some s)
    (hidx : d.find? "index.html" = some (.file html)) :
    (∃ fs2, build fs = some fs2 ∧
      lookup (staticDir ++ ["index.html"]) fs2
        = some (.file (replaceAppEntry html))) ∧
    replaceAppEntry "<script src=\"/_expo/static/js/web/AppEntry-abc123.js\"></script>"
      = "<script src=\"/bundle.js\"></script>" := by
  constructor
  · obtain ⟨fs2, hb, hout, _, _, _, _⟩ := build_spec_dir fs rch d s hfs hv hwf hdist hps
    refine ⟨fs2, hb, ?_⟩
    rw [lookup_static_of_out fs2 s hout ["index.html"]]
    have hsi := processStatic_index d s html hps hidx
    simp [lookup, hsi]
  · decide

/-- Witness for C3 on the representative build tree. -/
theorem c3_html_rewrite_witness :
    ((∃ fs2, build exFs = some fs2 ∧
      lookup (staticDir ++ ["index.html"]) fs2
        = some (.file (replaceAppEntry exHtml))) ∧
    replaceAppEntry "<script src=\"/_expo/static/js/web/AppEntry-abc123.js\"></script>"
      = "<script src=\"/bundle.js\"></script>") :=
  c3_html_rewrite exFs (.cons "dist" (.dir exDist) .nil) exDist exStatic exHtml
    rfl (by decide) (by decide) (by decide) (by decide) (by decide)

/-- C8: after a complete run the subdirectory `.vercel/output/config`
exists and is empty, while `config.json` is written directly at the output
root `.vercel/output/config.json`. -/
theorem c8_config_dir_unused (fs : Entry) (rch d s : Entries)
    (hfs : fs = .dir rch) (hv : vercelOk fs = true) (hwf : fs.wf = true)
    (hdist : lookup ["dist"] fs = some (.dir d))
    (hps : processStatic d = some s) :
    ∃ fs2, build fs = some fs2 ∧
      lookup (outputDir ++ ["config"]) fs2 = some (.dir .nil) ∧
      readFileAt (outputDir ++ ["config.json"]) fs2 = some configText := by
  obtain ⟨fs2, hb, hout, _, _, _, _⟩ := build_spec_dir fs rch d s hfs hv hwf hdist hps
  refine ⟨fs2, hb, ?_, ?_⟩
  · rw [lookup_append, hout]
    simp [lookup, outTree, Entries.find?]
  · have hcj : lookup (outputDir ++ ["config.json"]) fs2 = some (.file configText) := by
      rw [lookup_append, hout]
      simp [lookup, outTree, Entries.find?]
    rw [readFileAt, hcj]

/-- Witness for C8 on the representative build tree. -/
theorem c8_config_dir_unused_witness :
    ∃ fs2, build exFs = some fs2 ∧
      lookup (outputDir ++ ["config"]) fs2 = some (.dir .nil) ∧
      readFileAt (outputDir ++ ["config.json"]) fs2 = some configText :=
  c8_config_dir_unused exFs (.cons "dist" (.dir exDist) .nil) exDist exStatic
    rfl (by decide) (by decide) (by decide) (by decide)

/-- C9: the source build tree `dist` is never modified: every write of the
run targets paths under `.vercel`, so the `dist` subtree (and every other
path not comparable with `.vercel`) is identical before and after the
run. -/
theorem c9_dist_never_modified (fs : Entry) (rch d s : Entries)
    (hfs : fs = .dir rch) (hv : vercelOk fs = true) (hwf : fs.wf = true)
    (hdist : lookup ["dist"] fs = some (.dir d))
    (hps : processStatic d = some s) :
    ∃ fs2, build fs = some fs2 ∧
      lookup ["dist"] fs2 = lookup ["dist"] fs ∧
      (∀ q, touches [".vercel"] q = false → lookup q fs2 = lookup q fs) := by
  obtain ⟨fs2, hb, _, hframe, _, _, _⟩ := build_spec_dir fs rch d s hfs hv hwf hdist hps
  exact ⟨fs2, hb, hframe ["dist"] (by decide), hframe⟩

/-- Witness for C9 on the representative build tree. -/
theorem c9_dist_never_modified_witness :
    ∃ fs2, build exFs = some fs2 ∧
      lookup ["dist"] fs2 = lookup ["dist"] exFs ∧
      (∀ q, touches [".vercel"] q = false → lookup q fs2 = lookup q exFs) :=
  c9_dist_never_modified exFs (.cons "dist" (.dir exDist) .nil) exDist exStatic
    rfl (by decide) (by decide) (by decide) (by decide)

/-- C7: running the packager twice against the same unchanged source tree
yields byte-identical output trees under `.vercel/output`: the second
run's output subtree equals the first run's. -/
theorem c7_idempotent (fs : Entry) (rch d s : Entries)
    (hfs : fs = .dir rch) (hv : vercelOk fs = true) (hwf : fs.wf = true)
    (hdist : lookup ["dist"] fs = some (.dir d))
    (hps : processStatic d = some s) :
    ∃ fs2 fs3, build fs = some fs2 ∧ build fs2 = some fs3 ∧
      lookup outputDir fs3 = lookup outputDir fs2 := by
  obtain ⟨fs2, hb2, hout2, hframe2, ⟨rch2, hroot2⟩, hv2, hwf2⟩ :=
    build_spec_dir fs rch d s hfs hv hwf hdist hps
  have hdist2 : lookup ["dist"] fs2 = some (.dir d) := by
    rw [hframe2 ["dist"] (by decide)]
    exact hdist
  obtain ⟨fs3, hb3, hout3, _, _, _, _⟩ :=
    build_spec_dir fs2 rch2 d s hroot2 hv2 hwf2 hdist2 hps
  refine ⟨fs2, fs3, hb2, hb3, ?_⟩
  rw [hout3, hout2]

/-- Witness for C7 on the representative build tree. -/
theorem c7_idempotent_witness :
    ∃ fs2 fs3, build exFs = some fs2 ∧ build fs2 = some fs3 ∧
      lookup outputDir fs3 = lookup outputDir fs2 :=
  c7_idempotent exFs (.cons "dist" (.dir exDist) .nil) exDist exStatic
    rfl (by decide) (by decide) (by decide) (by decide)

/-- C10: when `dist` itself holds a root-level `bundle.js` file and a
matching `AppEntry*.js` bundle exists at the nested path, the final
`.vercel/output/static/bundle.js` holds the promoted bundle's bytes (the
promotion runs after the mirror and overwrites the mirrored copy in
place). -/
theorem c10_promotion_overwrites (fs : Entry) (rch d s files : Entries)
    (n c cOld : String)
    (hfs : fs = .dir rch) (hv : vercelOk fs = true) (hwf : fs.wf = true)
    (hdist : lookup ["dist"] fs = some (.dir d))
    (hps : processStatic d = some s)
    (hjs : lookup jsRel (.dir d) = some (.dir files))
    (hfind : files.names.find? isBundleName = some n)
    (hfn : files.find? n = some (.file c))
    (hold : d.find? "bundle.js" = some (.file cOld)) :
    ∃ fs2, build fs = some fs2 ∧
      lookup (staticDir ++ ["bundle.js"]) fs2 = some (.file c) := by
  obtain ⟨fs2, hb, hout, _, _, _, _⟩ := build_spec_dir fs rch d s hfs hv hwf hdist hps
  refine ⟨fs2, hb, ?_⟩
  rw [lookup_static_of_out fs2 s hout ["bundle.js"]]
  have hsb := processStatic_bundle d s files n c hps hjs hfind hfn
  simp [lookup, hsb]

/-- Witness for C10: `dist` holds `bundle.js` with bytes `OLD` and a
nested `AppEntry-1.js` with bytes `NEW`; the output `bundle.js` holds
`NEW`. -/
theorem c10_promotion_overwrites_witness :
    ∃ fs2, build exFs2 = some fs2 ∧
      lookup (staticDir ++ ["bundle.js"]) fs2 = some (.file "NEW") :=
  c10_promotion_overwrites exFs2 (.cons "dist" (.dir exDist2) .nil) exDist2 exStatic2
    (.cons "AppEntry-1.js" (.file "NEW") .nil) "AppEntry-1.js" "NEW" "OLD"
    rfl (by decide) (by decide) (by decide) (by decide) (by decide) (by decide)
    (by decide) (by decide)

/-- C1, as stated, is false: the packager rewrites the mirrored
`index.html`, so a `dist` whose `index.html` mentions an `AppEntry` bundle
does not come out byte-identical at the same relative path. -/
theorem c1_counterexample :
    ¬ (∀ fs2, build c1Fs = some fs2 →
        ∀ P c, lookup (["dist"] ++ P) c1Fs = some (.file c) →
          lookup (staticDir ++ P) fs2 = some (.file c)) := by
  intro hall
  cases hb : build c1Fs with
  | none =>
    have hs : (build c1Fs).isSome = true := by decide
    rw [hb] at hs
    cases hs
  | some fs2 =>
    have h1 := hall fs2 hb ["index.html"] exHtml (by decide)
    have h2 : (build c1Fs).bind (fun f => lookup (staticDir ++ ["index.html"]) f)
        = some (.file exHtmlRew) := by decide
    rw [hb] at h2
    simp only [Option.some_bind] at h2
    rw [h1] at h2
    have h3 : exHtml = exHtmlRew := by
      injection h2 with h4
      injection h4
    exact absurd h3 (by decide)

/-- C1 (amended): for every file at relative path `P` under `dist` other
than the two paths the later phases overwrite — the root `index.html`
(rewritten) and the root `bundle.js` (overwritten by promotion) — a file
with byte-identical content exists at the same relative path under the
output static subdirectory. -/
theorem c1_mirroring_completeness (fs : Entry) (rch d s : Entries)
    (P : List String) (c : String)
    (hfs : fs = .dir rch) (hv : vercelOk fs = true) (hwf : fs.wf = true)
    (hdist : lookup ["dist"] fs = some (.dir d))
    (hps : processStatic d = some s)
    (hP : lookup (["dist"] ++ P) fs = some (.file c))
    (h1 : P ≠ ["index.html"]) (h2 : P ≠ ["bundle.js"]) :
    ∃ fs2, build fs = some fs2 ∧
      lookup (staticDir ++ P) fs2 = some (.file c) := by
  obtain ⟨fs2, hb, hout, _, _, _, _⟩ := build_spec_dir fs rch d s hfs hv hwf hdist hps
  refine ⟨fs2, hb, ?_⟩
  rw [lookup_static_of_out fs2 s hout P]
  have hPd : lookup P (.dir d) = some (.file c) := by
    rw [lookup_append, hdist] at hP
    simpa using hP
  exact processStatic_lookup_file d s hps P c hPd h1 h2

/-- Witness for the amended C1: the asset `assets/logo.png` is mirrored
byte-identically. -/
theorem c1_mirroring_completeness_witness :
    ∃ fs2, build exFs = some fs2 ∧
      lookup (staticDir ++ ["assets", "logo.png"]) fs2 = some (.file "PNG") :=
  c1_mirroring_completeness exFs (.cons "dist" (.dir exDist) .nil) exDist exStatic
    ["assets", "logo.png"] "PNG"
    rfl (by decide) (by decide) (by decide) (by decide) (by decide) (by decide)
    (by decide)

/-- C5, as stated, is false in its last conjunct: with no nested JS
directory the packager does complete, but the output can still contain a
`bundle.js` — the mirror phase copies a root-level `dist/bundle.js`
verbatim. -/
theorem c5_counterexample :
    lookup jsDirPath c5cexFs = none ∧
    ¬ (∀ fs2, build c5cexFs = some fs2 →
        lookup (staticDir ++ ["bundle.js"]) fs2 = none) := by
  refine ⟨by decide, ?_⟩
  intro hall
  cases hb : build c5cexFs with
  | none =>
    have hs : (build c5cexFs).isSome = true := by decide
    rw [hb] at hs
    cases hs
  | some fs2 =>
    have h1 := hall fs2 hb
    have h2 : (build c5cexFs).bind (fun f => lookup (staticDir ++ ["bundle.js"]) f)
        = some (.file "mirrored") := by decide
    rw [hb] at h2
    simp only [Option.some_bind] at h2
    rw [h1] at h2
    cases h2

/-- C5 (amended): every expected absence is a non-fatal skip.  If `dist`
does not exist the mirror is a no-op, the run completes, the static
subdirectory is empty and holds no `bundle.js`.  If `dist` exists but the
nested JS directory does not, or the nested JS directory exists but no
listing entry matches `AppEntry*.js`, the promotion is skipped and the run
completes (its `index.html`, if any, being a regular file), and the output
holds no `bundle.js` provided `dist` itself has none at its root. -/
theorem c5_absence_tolerance :
    (∀ fs : Entry, ∀ rch : Entries, fs = .dir rch → vercelOk fs = true →
      fs.wf = true → lookup ["dist"] fs = none →
      ∃ fs2, build fs = some fs2 ∧
        lookup staticDir fs2 = some (.dir .nil) ∧
        lookup (staticDir ++ ["bundle.js"]) fs2 = none) ∧
    (∀ fs : Entry, ∀ rch d : Entries, fs = .dir rch → vercelOk fs = true →
      fs.wf = true → lookup ["dist"] fs = some (.dir d) →
      lookup jsRel (.dir d) = none → htmlOk d = true →
      d.hasName "bundle.js" = false →
      ∃ fs2, build fs = some fs2 ∧
        lookup (staticDir ++ ["bundle.js"]) fs2 = none) ∧
    (∀ fs : Entry, ∀ rch d files : Entries, fs = .dir rch → vercelOk fs = true →
      fs.wf = true → lookup ["dist"] fs = some (.dir d) →
      lookup jsRel (.dir d) = some (.dir files) →
      files.names.find? isBundleName = none → htmlOk d = true →
      d.hasName "bundle.js" = false →
      ∃ fs2, build fs = some fs2 ∧
        lookup (staticDir ++ ["bundle.js"]) fs2 = none) := by
  refine ⟨?_, ?_, ?_⟩
  · intro fs rch hfs hv hwf hd
    obtain ⟨fs2, hb, hout, _, _, _, _⟩ := build_spec_missing fs rch hfs hv hwf hd
    refine ⟨fs2, hb, ?_, ?_⟩
    · show lookup (outputDir ++ ["static"]) fs2 = _
      rw [lookup_append, hout]
      simp [lookup, outTree, Entries.find?]
    · rw [lookup_static_of_out fs2 .nil hout ["bundle.js"]]
      simp [lookup, Entries.find?]
  · intro fs rch d hfs hv hwf hd hjs hok hnb
    obtain ⟨s, hps, hsb⟩ := processStatic_skip d (promoteJs_of_nojs d hjs) hok
    obtain ⟨fs2, hb, hout, _, _, _, _⟩ := build_spec_dir fs rch d s hfs hv hwf hd hps
    refine ⟨fs2, hb, ?_⟩
    rw [lookup_static_of_out fs2 s hout ["bundle.js"]]
    have hnone : s.find? "bundle.js" = none := by
      rw [hsb]
      exact Entries.find?_eq_none_of_hasName d "bundle.js" hnb
    simp [lookup, hnone]
  · intro fs rch d files hfs hv hwf hd hjs hfind hok hnb
    obtain ⟨s, hps, hsb⟩ :=
      processStatic_skip d (promoteJs_of_nomatch d files hjs hfind) hok
    obtain ⟨fs2, hb, hout, _, _, _, _⟩ := build_spec_dir fs rch d s hfs hv hwf hd hps
    refine ⟨fs2, hb, ?_⟩
    rw [lookup_static_of_out fs2 s hout ["bundle.js"]]
    have hnone : s.find? "bundle.js" = none := by
      rw [hsb]
      exact Entries.find?_eq_none_of_hasName d "bundle.js" hnb
    simp [lookup, hnone]

/-- Witness for the amended C5: one run with no `dist` at all, one run
with a `dist` holding only a text file (no nested JS directory), and one
run with a nested JS directory holding only a non-matching `other.js`. -/
theorem c5_absence_tolerance_witness :
    (∃ fs2, build c5aFs = some fs2 ∧
      lookup staticDir fs2 = some (.dir .nil) ∧
      lookup (staticDir ++ ["bundle.js"]) fs2 = none) ∧
    (∃ fs2, build c5bFs = some fs2 ∧
      lookup (staticDir ++ ["bundle.js"]) fs2 = none) ∧
    (∃ fs2, build c5cFs = some fs2 ∧
      lookup (staticDir ++ ["bundle.js"]) fs2 = none) :=
  ⟨c5_absence_tolerance.1 c5aFs .nil rfl (by decide) (by decide) (by decide),
    c5_absence_tolerance.2.1 c5bFs (.cons "dist" (.dir c5bDist) .nil) c5bDist
      rfl (by decide) (by decide) (by decide) (by decide) (by decide) (by decide),
    c5_absence_tolerance.2.2 c5cFs (.cons "dist" (.dir c5cDist) .nil) c5cDist
      (.cons "other.js" (.file "y") .nil)
      rfl (by decide) (by decide) (by decide) (by decide) (by decide) (by decide)
      (by decide)⟩

end VercelBuild
